import Mathlib

/-!
Verification of the GoAdvMath dense-matrix engine and its scalar integration
routines, against the repository's specification.

Modelling conventions:
* `float64` values are modelled as exact rationals (`ℚ`); "within
  floating-point tolerance" becomes exact equality.  Division by zero follows
  Lean's `x / 0 = 0` convention.
* A Go slice `[]float64` backing a matrix is modelled as a total function
  `ℕ → ℚ`; a freshly allocated slice is the constant-zero function, and an
  element write is `setIdx`.  Out-of-range reads return `0` (Go would panic);
  every statement below only evaluates in-range positions of the relevant
  buffers unless noted otherwise.
* Source `for` loops are translated to structurally recursive functions with
  an explicit iteration-count ("fuel") argument chosen to be an upper bound of
  (in almost all cases, exactly) the number of iterations the Go loop performs.
-/

namespace advmath

/-- Write `v` at linear offset `i` of a flat buffer: models `buf[i] = v`. -/
def setIdx (buf : ℕ → ℚ) (i : ℕ) (v : ℚ) : ℕ → ℚ :=
  fun t => if t = i then v else buf t

/-- `sumR i f` models a Go accumulation loop `for j = 0; j < i; j++ { s += f(j) }`. -/
def sumR (i : ℕ) (f : ℕ → ℚ) : ℚ := ∑ j in Finset.range i, f j

/-- `sumIco lo hi f` models `for j = lo; j < hi; j++ { s += f(j) }`. -/
def sumIco (lo hi : ℕ) (f : ℕ → ℚ) : ℚ := ∑ j in Finset.Ico lo hi, f j

/-- `prodR n f` models `for j = 0; j < n; j++ { p *= f(j) }`. -/
def prodR (n : ℕ) (f : ℕ → ℚ) : ℚ := ∏ j in Finset.range n, f j

/-- Error type used throughout the library (source: `error.go`, `MathError`). -/
structure MathError where
  code : Int
  s : String
deriving DecidableEq, Repr

def errorDivisionByZero : Int := 1
def errorNonSquareMatrix : Int := 2
def errorMatrixIsNil : Int := 3
def errorCannotMultiply : Int := 4
def errorCannotAdd : Int := 5
def errorNotInversible : Int := 6

/-- A matrix: row/column counts plus the flat row-major `float64` buffer. -/
structure Matrix where
  NumberOfRows : ℕ
  NumberOfColumns : ℕ
  M : ℕ → ℚ

/-- `NewMatrix` creates a zero-filled `rows × cols` matrix. -/
def NewMatrix (rows cols : ℕ) : Matrix :=
  ⟨rows, cols, fun _ => 0⟩

/-- The double loop of `NewIdentity` writes only at `j == k`, i.e. at flat
offset `j*rows + j` for each `j < rows`; this single loop is that sequence of
writes. -/
def identGo (n : ℕ) : ℕ → ℕ → (ℕ → ℚ) → (ℕ → ℚ)
  | 0, _, buf => buf
  | fuel+1, j, buf =>
    if j < n then identGo n fuel (j+1) (setIdx buf (j*n+j) 1) else buf

/-- `NewIdentity` creates the `rows × rows` identity matrix. -/
def NewIdentity (rows : ℕ) : Matrix :=
  ⟨rows, rows, identGo rows rows 0 (fun _ => 0)⟩

/-- `IsSquare`. -/
def Matrix.IsSquare (m : Matrix) : Prop :=
  m.NumberOfColumns = m.NumberOfRows

instance (m : Matrix) : Decidable m.IsSquare := by
  unfold Matrix.IsSquare; infer_instance

/-- `Get`: `m.M[row*m.NumberOfColumns+column]`. -/
def Matrix.Get (m : Matrix) (row column : ℕ) : ℚ :=
  m.M (row * m.NumberOfColumns + column)

/-- `GetColumn` returns the column as an array of length `NumberOfRows`,
modelled as a function of the row index. -/
def Matrix.GetColumn (m : Matrix) (colNumber : ℕ) : ℕ → ℚ :=
  fun rows => m.M (rows * m.NumberOfColumns + colNumber)

/-- `Set`: writes `value` at `row*m.NumberOfColumns+column`. -/
def Matrix.Set (m : Matrix) (row column : ℕ) (value : ℚ) : Matrix :=
  ⟨m.NumberOfRows, m.NumberOfColumns, setIdx m.M (row * m.NumberOfColumns + column) value⟩

/-- `SubMatrix` replaces the backing buffer by the slice
`m.M[row*cols+col : row*cols+col+numberRows*cols+numberCols]`, which is the
original buffer shifted by `row*cols+col`.  The slice's end index exceeds the
`rows*cols` buffer length for some calls — in particular every in-range block
that includes the last row (even the example in the source's own doc comment),
where Go panics and returns nothing; the model's shifted buffer is total, and
the values of every call that does return are unchanged. -/
def Matrix.SubMatrix (m : Matrix) (row col numberRows numberCols : ℕ) : Matrix :=
  ⟨numberRows, numberCols, fun t => m.M (row * m.NumberOfColumns + col + t)⟩

/-- Inner loop of a row-major fill
`for col = 0; col < cols; col++ { result.M[r*stride+col] = f(r, col) }`. -/
def fillRowGo (stride : ℕ) (f : ℕ → ℕ → ℚ) (cols r : ℕ) : ℕ → ℕ → (ℕ → ℚ) → (ℕ → ℚ)
  | 0, _, buf => buf
  | fuel+1, c, buf =>
    if c < cols then fillRowGo stride f cols r fuel (c+1) (setIdx buf (r*stride+c) (f r c))
    else buf

/-- Outer loop of a row-major fill over `row = 0..rows-1`. -/
def fillAllGo (stride : ℕ) (f : ℕ → ℕ → ℚ) (rows cols : ℕ) : ℕ → ℕ → (ℕ → ℚ) → (ℕ → ℚ)
  | 0, _, buf => buf
  | fuel+1, r, buf =>
    if r < rows then fillAllGo stride f rows cols fuel (r+1) (fillRowGo stride f cols r cols 0 buf)
    else buf

/-- Row-major double fill loop into a fresh zero buffer. -/
def fillAll (stride : ℕ) (f : ℕ → ℕ → ℚ) (rows cols : ℕ) : ℕ → ℚ :=
  fillAllGo stride f rows cols rows 0 (fun _ => 0)

/-- `Multiply`: checks `m.NumberOfColumns != in.NumberOfRows`, then fills
`result.M[i*result.NumberOfColumns+j]` by accumulating
`m.M[i*m.NumberOfColumns+k] * in.M[k*in.NumberOfColumns+j]` over `k`;
the accumulation loop is rendered by `sumR`. -/
def Matrix.Multiply (m inM : Matrix) : Except MathError Matrix :=
  if m.NumberOfColumns ≠ inM.NumberOfRows then
    .error ⟨errorCannotMultiply, ""⟩
  else
    .ok ⟨m.NumberOfRows, inM.NumberOfColumns,
      fillAll inM.NumberOfColumns
        (fun i j => sumR m.NumberOfColumns
          (fun k => m.M (i * m.NumberOfColumns + k) * inM.M (k * inM.NumberOfColumns + j)))
        m.NumberOfRows inM.NumberOfColumns⟩

/-- Inner loop of `ScalarMultiply`:
`for col = 0; col < cols; col++ { result.M[row*stride+col] *= scal }`. -/
def scalRowGo (stride : ℕ) (scal : ℚ) (r cols : ℕ) : ℕ → ℕ → (ℕ → ℚ) → (ℕ → ℚ)
  | 0, _, buf => buf
  | fuel+1, c, buf =>
    if c < cols then
      scalRowGo stride scal r cols fuel (c+1) (setIdx buf (r*stride+c) (buf (r*stride+c) * scal))
    else buf

/-- Outer loop of `ScalarMultiply`. -/
def scalGo (stride : ℕ) (scal : ℚ) (rows cols : ℕ) : ℕ → ℕ → (ℕ → ℚ) → (ℕ → ℚ)
  | 0, _, buf => buf
  | fuel+1, r, buf =>
    if r < rows then scalGo stride scal rows cols fuel (r+1) (scalRowGo stride scal r cols cols 0 buf)
    else buf

/-- `ScalarMultiply`: allocates `NewMatrix(m.NumberOfColumns, m.NumberOfRows)`
(note the swapped dimensions in the source) and then runs
`result.M[row*result.NumberOfColumns+col] *= scal` over `row < m.NumberOfRows`,
`col < m.NumberOfColumns`; `result.NumberOfColumns` is `m.NumberOfRows`.
The allocated buffer has length `rows*cols` while the writes use stride
`rows`, so for `rows > cols ≥ 1` (with `rows ≥ 2`) a write index reaches the
buffer length and the Go runtime panics (see `addLoopInBounds`); the model's
total writes return the all-zero matrix there, a value Go never produces. -/
def Matrix.ScalarMultiply (m : Matrix) (scal : ℚ) : Matrix :=
  ⟨m.NumberOfColumns, m.NumberOfRows,
    scalGo m.NumberOfRows scal m.NumberOfRows m.NumberOfColumns m.NumberOfRows 0 (fun _ => 0)⟩

/-- `Neg` is `ScalarMultiply(-1.0)`. -/
def Matrix.Neg (m : Matrix) : Matrix :=
  m.ScalarMultiply (-1)

/-- `Add`: checks the shapes of `m` and `in`, allocates
`NewMatrix(m.NumberOfColumns, m.NumberOfRows)` (swapped dimensions in the
source) and writes `result.M[row*result.NumberOfColumns+col] =
m.M[row*m.NumberOfColumns+col] + in.M[row*in.NumberOfColumns+col]` over
`row < m.NumberOfRows`, `col < m.NumberOfColumns`; the write stride
`result.NumberOfColumns` is `m.NumberOfRows`.  As in `ScalarMultiply`, for
`rows > cols ≥ 1` (with `rows ≥ 2`) a write index reaches the `rows*cols`
buffer length and the Go runtime panics (see `addLoopInBounds`); the model's
total writes return a value there that Go never produces. -/
def Matrix.Add (m inM : Matrix) : Except MathError Matrix :=
  if inM.NumberOfColumns ≠ m.NumberOfColumns ∨ inM.NumberOfRows ≠ m.NumberOfRows then
    .error ⟨errorCannotAdd, ""⟩
  else
    .ok ⟨m.NumberOfColumns, m.NumberOfRows,
      fillAll m.NumberOfRows
        (fun r c => m.M (r * m.NumberOfColumns + c) + inM.M (r * inM.NumberOfColumns + c))
        m.NumberOfRows m.NumberOfColumns⟩

/-- `Subtract`: shape check, then `m.Add(in.Neg())`. -/
def Matrix.Subtract (m inM : Matrix) : Except MathError Matrix :=
  if inM.NumberOfColumns ≠ m.NumberOfColumns ∨ inM.NumberOfRows ≠ m.NumberOfRows then
    .error ⟨errorCannotAdd, ""⟩
  else
    m.Add inM.Neg

/-- The fill loops of `Add` and `ScalarMultiply` on a `rows × cols` operand
write the flat indices `row*rows + col` (`row < rows`, `col < cols`, stride
`result.NumberOfColumns = rows`) into the freshly allocated buffer of
`NewMatrix(cols, rows)`, whose length is `rows*cols`.  This predicate states
that every such write stays within the buffer; when it fails, the Go runtime
panics with an index-out-of-range error at the first violating write and the
function returns nothing. -/
def addLoopInBounds (rows cols : ℕ) : Prop :=
  ∀ row col, row < rows → col < cols → row * rows + col < rows * cols

/-- Upper-triangular inner loop of `LUDecomposition`, iteration `i`:
`for k = i; k < n; k++ { u.M[i*n+k] = m.M[i*n+k] - Σ_{j<i} l.M[i*n+j]*u.M[j*n+k] }`. -/
def luUpperGo (a l : ℕ → ℚ) (n i : ℕ) : ℕ → ℕ → (ℕ → ℚ) → (ℕ → ℚ)
  | 0, _, u => u
  | fuel+1, k, u =>
    if k < n then
      luUpperGo a l n i fuel (k+1)
        (setIdx u (i*n+k) (a (i*n+k) - sumR i (fun j => l (i*n+j) * u (j*n+k))))
    else u

/-- Lower-triangular inner loop of `LUDecomposition`, iteration `i`:
`for k = i; k < n; k++ { if i == k { l.M[i*n+i] = 1 } else
{ l.M[k*n+i] = (m.M[k*n+i] - Σ_{j<i} l.M[k*n+j]*u.M[j*n+i]) / u.M[i*n+i] } }`. -/
def luLowerGo (a u : ℕ → ℚ) (n i : ℕ) : ℕ → ℕ → (ℕ → ℚ) → (ℕ → ℚ)
  | 0, _, l => l
  | fuel+1, k, l =>
    if k < n then
      luLowerGo a u n i fuel (k+1)
        (if k = i then setIdx l (i*n+i) 1
         else setIdx l (k*n+i) ((a (k*n+i) - sumR i (fun j => l (k*n+j) * u (j*n+i))) / u (i*n+i)))
    else l

/-- Outer loop of `LUDecomposition` over `i = 0..n-1`; each iteration runs the
upper loop and then the lower loop (which reads the updated `u`). -/
def luOuterGo (a : ℕ → ℚ) (n : ℕ) : ℕ → ℕ → ((ℕ → ℚ) × (ℕ → ℚ)) → ((ℕ → ℚ) × (ℕ → ℚ))
  | 0, _, lu => lu
  | fuel+1, i, lu =>
    if i < n then
      luOuterGo a n fuel (i+1)
        (luLowerGo a (luUpperGo a lu.1 n i (n-i) i lu.2) n i (n-i) i lu.1,
         luUpperGo a lu.1 n i (n-i) i lu.2)
    else lu

/-- The `(l, u)` buffers computed by the LU loops on the zero-allocated
matrices `NewMatrix(m.NumberOfRows, m.NumberOfColumns)`. -/
def luPair (m : Matrix) : (ℕ → ℚ) × (ℕ → ℚ) :=
  luOuterGo m.M m.NumberOfColumns m.NumberOfColumns 0 (fun _ => 0, fun _ => 0)

/-- `LUDecomposition`: rejects non-square matrices with `errorNonSquareMatrix`,
otherwise returns the pair of `NumberOfRows × NumberOfColumns` matrices backed
by the LU loop buffers. -/
def Matrix.LUDecomposition (m : Matrix) : Except MathError (Matrix × Matrix) :=
  if m.IsSquare then
    .ok (⟨m.NumberOfRows, m.NumberOfColumns, (luPair m).1⟩,
         ⟨m.NumberOfRows, m.NumberOfColumns, (luPair m).2⟩)
  else
    .error ⟨errorNonSquareMatrix, ""⟩

/-- `Determinant`: square check, LU decomposition, then the loop
`det *= u.Get(row, column); column++` over `row < NumberOfRows`, i.e. the
product of the diagonal entries of `u` (rendered by `prodR`). -/
def Matrix.Determinant (m : Matrix) : Except MathError ℚ :=
  if ¬m.IsSquare then .error ⟨errorNonSquareMatrix, ""⟩
  else
    match m.LUDecomposition with
    | .error e => .error e
    | .ok (_, u) => .ok (prodR m.NumberOfRows (fun row => u.Get row row))

/-- `determinantLU`: same computation as `Determinant` but also returning the
`l` and `u` matrices. -/
def Matrix.determinantLU (m : Matrix) : Except MathError (ℚ × Matrix × Matrix) :=
  if ¬m.IsSquare then .error ⟨errorNonSquareMatrix, ""⟩
  else
    match m.LUDecomposition with
    | .error e => .error e
    | .ok (l, u) => .ok (prodR m.NumberOfRows (fun row => u.Get row row), l, u)

/-- Inner loop of the forward substitution in `Inverse`, column `k`:
`for i = 1; i < n; i++ { y.M[i*n+k] = (id.Get(i,k) - Σ_{j<i} l.Get(i,j)*y.M[j*n+k]) / l.Get(i,i) }`.
(The summation variable is reset to `0` after each row, so each row computes a
fresh sum.) -/
def fwdRowGo (l idb : ℕ → ℚ) (n k : ℕ) : ℕ → ℕ → (ℕ → ℚ) → (ℕ → ℚ)
  | 0, _, y => y
  | fuel+1, i, y =>
    if i < n then
      fwdRowGo l idb n k fuel (i+1)
        (setIdx y (i*n+k) ((idb (i*n+k) - sumR i (fun j => l (i*n+j) * y (j*n+k))) / l (i*n+i)))
    else y

/-- Outer loop of the forward substitution in `Inverse` over columns
`k = 0..n-1`; each column first sets
`y.M[k] = id.GetColumn(k)[0] / l.Get(0,0)` and then runs the inner loop from
row 1. -/
def fwdGo (l idb : ℕ → ℚ) (n : ℕ) : ℕ → ℕ → (ℕ → ℚ) → (ℕ → ℚ)
  | 0, _, y => y
  | fuel+1, k, y =>
    if k < n then
      fwdGo l idb n fuel (k+1) (fwdRowGo l idb n k (n-1) 1 (setIdx y k (idb (0*n+k) / l (0*n+0))))
    else y

/-- Inner loop of the backward substitution in `Inverse`, column `c`, rows
`o = n-2` down to `0`; the first argument is `o+1` (so `0` means the loop is
done):
`x.M[o*n+c] = (y.Get(o,c) - Σ_{p=o+1}^{n-1} u.Get(o,p)*x.Get(p,c)) / u.Get(o,o)`. -/
def bwdRowGo (u yb : ℕ → ℚ) (n c : ℕ) : ℕ → (ℕ → ℚ) → (ℕ → ℚ)
  | 0, x => x
  | o+1, x =>
    bwdRowGo u yb n c o
      (setIdx x (o*n+c) ((yb (o*n+c) - sumIco (o+1) n (fun p => u (o*n+p) * x (p*n+c))) / u (o*n+o)))

/-- Outer loop of the backward substitution in `Inverse` over
`np = 0..n-1`, working on column `c = n-1-np`; each column first sets
`x.Set(n-1, c, y.GetColumn(c)[n-1] / u.Get(n-1, n-1))` and then runs the inner
loop from row `n-2` downwards. -/
def bwdGo (u yb : ℕ → ℚ) (n : ℕ) : ℕ → ℕ → (ℕ → ℚ) → (ℕ → ℚ)
  | 0, _, x => x
  | fuel+1, np, x =>
    if np < n then
      bwdGo u yb n fuel (np+1)
        (bwdRowGo u yb n (n-1-np) (n-1)
          (setIdx x ((n-1)*n + (n-1-np)) (yb ((n-1)*n + (n-1-np)) / u ((n-1)*n + (n-1)))))
    else x

/-- `Inverse`: LU decomposition and determinant via `determinantLU`; fails with
`errorNotInversible` when the determinant is exactly `0.0`; otherwise solves
`L·Y = I` by forward substitution and `U·X = Y` by backward substitution, both
column by column, and returns `X` (an `n × n` matrix).  The source mixes
`NumberOfRows` and `NumberOfColumns` of the (necessarily square, hence equal)
operands as loop bounds and strides; the embedding uses `m.NumberOfRows`
uniformly, which coincides on every input that reaches this code. -/
def Matrix.Inverse (m : Matrix) : Except MathError Matrix :=
  match m.determinantLU with
  | .error e => .error e
  | .ok (det, l, u) =>
    if det = 0 then .error ⟨errorNotInversible, ""⟩
    else
      .ok ⟨m.NumberOfRows, m.NumberOfColumns,
        bwdGo u.M (fwdGo l.M (NewIdentity m.NumberOfRows).M m.NumberOfRows m.NumberOfRows 0 (fun _ => 0))
          m.NumberOfRows m.NumberOfRows 0 (fun _ => 0)⟩

/-- The row-major⇄column-major index map used by the in-place transpose:
`j ↦ (j mod rows) * cols + j div rows`. -/
def tIdx (rows cols j : ℕ) : ℕ := (j % rows) * cols + j / rows

/-- The second do-while of `nonSquareTranspose`: walk the cycle of `tIdx`
starting at `j`, writing `ret.M[j] = m.M[i]` (with the saved `tmp` when the
cycle closes, `i == start`; since `ret` is a fresh output buffer and `tmp`
was read from the unmodified `m`, that equals `m.M[i]` as well), then continue
from `i` while `i > start`.  The fuel (a cycle visits at most `rows*cols`
distinct indices) is passed by the caller.  The first do-while of the source,
which only computes an unused cycle-length counter `i`, has no effect on any
buffer and is omitted. -/
def cycleGo (mb : ℕ → ℚ) (rows cols start : ℕ) (tmp : ℚ) : ℕ → ℕ → (ℕ → ℚ) → (ℕ → ℚ)
  | 0, _, ret => ret
  | fuel+1, j, ret =>
    if start < tIdx rows cols j then
      cycleGo mb rows cols start tmp fuel (tIdx rows cols j)
        (if tIdx rows cols j = start then setIdx ret j tmp else setIdx ret j (mb (tIdx rows cols j)))
    else
      (if tIdx rows cols j = start then setIdx ret j tmp else setIdx ret j (mb (tIdx rows cols j)))

/-- Outer loop of `nonSquareTranspose` over `start = 0 .. rows*cols - 1`
(skipped entirely when `rows*cols = 0`, matching the `int64` comparison in the
source). -/
def nstGo (mb : ℕ → ℚ) (rows cols : ℕ) : ℕ → ℕ → (ℕ → ℚ) → (ℕ → ℚ)
  | 0, _, ret => ret
  | fuel+1, start, ret =>
    if start < rows*cols then
      nstGo mb rows cols fuel (start+1)
        (cycleGo mb rows cols start (mb start) (rows*cols) start ret)
    else ret

/-- `nonSquareTranspose`: cycle-following transpose into a new
`cols × rows` matrix. -/
def Matrix.nonSquareTranspose (m : Matrix) : Matrix :=
  ⟨m.NumberOfColumns, m.NumberOfRows,
    nstGo m.M m.NumberOfRows m.NumberOfColumns (m.NumberOfRows*m.NumberOfColumns) 0 (fun _ => 0)⟩

/-- Diagonal-copy loop of the square `Transpose` branch:
`for k = 0; k < rows; k++ { ret.Set(k, k, m.Get(k, k)) }`. -/
def diagGo (mb : ℕ → ℚ) (n : ℕ) : ℕ → ℕ → (ℕ → ℚ) → (ℕ → ℚ)
  | 0, _, ret => ret
  | fuel+1, k, ret =>
    if k < n then diagGo mb n fuel (k+1) (setIdx ret (k*n+k) (mb (k*n+k))) else ret

/-- Inner swap loop of the square `Transpose` branch, iteration `i`:
`for j = i+1; j <= rows-1; j++ { ret.Set(j, i, m.Get(i, j)); ret.Set(i, j, m.Get(j, i)) }`. -/
def swapInnerGo (mb : ℕ → ℚ) (n i : ℕ) : ℕ → ℕ → (ℕ → ℚ) → (ℕ → ℚ)
  | 0, _, ret => ret
  | fuel+1, j, ret =>
    if j < n then
      swapInnerGo mb n i fuel (j+1)
        (setIdx (setIdx ret (j*n+i) (mb (i*n+j))) (i*n+j) (mb (j*n+i)))
    else ret

/-- Outer swap loop of the square `Transpose` branch:
`for i = 0; i <= rows-2; i++` (the bound `i + 2 ≤ n` renders the `int`
comparison `i <= rows-2`, which skips the loop for `rows ≤ 1`). -/
def swapOuterGo (mb : ℕ → ℚ) (n : ℕ) : ℕ → ℕ → (ℕ → ℚ) → (ℕ → ℚ)
  | 0, _, ret => ret
  | fuel+1, i, ret =>
    if i + 2 ≤ n then
      swapOuterGo mb n fuel (i+1) (swapInnerGo mb n i (n-(i+1)) (i+1) ret)
    else ret

/-- `Transpose`: dispatches on squareness; both branches return a new
`cols × rows` matrix and a `nil` error. -/
def Matrix.Transpose (m : Matrix) : Except MathError Matrix :=
  if ¬m.IsSquare then .ok m.nonSquareTranspose
  else
    .ok ⟨m.NumberOfColumns, m.NumberOfRows,
      swapOuterGo m.M m.NumberOfRows m.NumberOfRows 0
        (diagGo m.M m.NumberOfRows m.NumberOfRows 0 (fun _ => 0))⟩

/-- Modelled from the spec: the scalar-function parameter type `F`
(its declaration is not among the provided source files; per §6 of the
specification the calculus routines take a one-argument real function). -/
abbrev F : Type := ℚ → ℚ

/-- `Simpson`: rejects an odd iteration count `n` (Go `n%2 != 0`, truncated
remainder), otherwise returns `s*h/3` where `h = (sup-inf)/n` and `s` sums
`f(inf) + f(sup)`, `4*f(inf+i*h)` over `i = 1, 3, ... < n` and `2*f(inf+j*h)`
over `j = 2, 4, ... < n-1`; the two accumulation loops are rendered as sums
over their iteration counts. -/
def Simpson (inf sup : ℚ) (f : F) (n : ℤ) : Except MathError ℚ :=
  if n.tmod 2 ≠ 0 then
    .error ⟨0, "Invalid number of iterations, for simpson, iterations number has to be even"⟩
  else
    .ok ((f inf + f sup
      + sumR (((n - 1).toNat + 1) / 2)
          (fun k => 4 * f (inf + ((1 + 2*(k:ℤ) : ℤ) : ℚ) * ((sup - inf) / (n:ℚ))))
      + sumR ((n - 2).toNat / 2)
          (fun k => 2 * f (inf + ((2 + 2*(k:ℤ) : ℤ) : ℚ) * ((sup - inf) / (n:ℚ)))))
      * ((sup - inf) / (n:ℚ)) / 3)

/-! ### Generic facts about buffers and loops -/

theorem setIdx_self (buf : ℕ → ℚ) (i : ℕ) (v : ℚ) : setIdx buf i v i = v := by
  simp [setIdx]

theorem setIdx_ne (buf : ℕ → ℚ) (i : ℕ) (v : ℚ) {t : ℕ} (h : t ≠ i) :
    setIdx buf i v t = buf t := by
  simp [setIdx, h]

/-- Injectivity of row-major flat indexing when both column offsets are in range. -/
theorem flatIdx_inj {n a b c d : ℕ} (hb : b < n) (hd : d < n) :
    a * n + b = c * n + d ↔ a = c ∧ b = d := by
  constructor
  · intro h
    rcases Nat.lt_trichotomy a c with h1 | h1 | h1
    · exfalso
      have h2 : a + 1 ≤ c := h1
      have h3 : (a + 1) * n ≤ c * n := Nat.mul_le_mul_right n h2
      have h4 : a * n + b < (a + 1) * n := by
        have : (a + 1) * n = a * n + n := by ring
        omega
      omega
    · constructor
      · exact h1
      · subst h1; omega
    · exfalso
      have h2 : c + 1 ≤ a := h1
      have h3 : (c + 1) * n ≤ a * n := Nat.mul_le_mul_right n h2
      have h4 : c * n + d < (c + 1) * n := by
        have : (c + 1) * n = c * n + n := by ring
        omega
      omega
  · rintro ⟨rfl, rfl⟩; rfl

theorem fillRowGo_ne (stride : ℕ) (f : ℕ → ℕ → ℚ) (cols r : ℕ) :
    ∀ fuel c buf idx, (∀ c', c ≤ c' → c' < cols → idx ≠ r*stride+c') →
      fillRowGo stride f cols r fuel c buf idx = buf idx := by
  intro fuel
  induction fuel with
  | zero => intro c buf idx _; rfl
  | succ fuel ih =>
    intro c buf idx h
    by_cases hc : c < cols
    · rw [fillRowGo, if_pos hc, ih (c+1) _ idx (fun c' h1 h2 => h c' (by omega) h2),
        setIdx_ne _ _ _ (h c le_rfl hc)]
    · rw [fillRowGo, if_neg hc]

theorem fillRowGo_write (stride : ℕ) (f : ℕ → ℕ → ℚ) (cols r : ℕ) :
    ∀ fuel c buf c₀, cols ≤ c + fuel → c ≤ c₀ → c₀ < cols →
      fillRowGo stride f cols r fuel c buf (r*stride+c₀) = f r c₀ := by
  intro fuel
  induction fuel with
  | zero => intro c buf c₀ h1 h2 h3; omega
  | succ fuel ih =>
    intro c buf c₀ h1 h2 h3
    have hc : c < cols := by omega
    rw [fillRowGo, if_pos hc]
    rcases Nat.eq_or_lt_of_le h2 with rfl | hlt
    · rw [fillRowGo_ne]
      · exact setIdx_self _ _ _
      · intro c' h4 h5 h6
        have : c = c' := by omega
        omega
    · exact ih (c+1) _ c₀ (by omega) (by omega) h3

theorem fillAllGo_ne (stride : ℕ) (f : ℕ → ℕ → ℚ) (rows cols : ℕ) :
    ∀ fuel r buf idx, (∀ r' c', r ≤ r' → r' < rows → c' < cols → idx ≠ r'*stride+c') →
      fillAllGo stride f rows cols fuel r buf idx = buf idx := by
  intro fuel
  induction fuel with
  | zero => intro r buf idx _; rfl
  | succ fuel ih =>
    intro r buf idx h
    by_cases hr : r < rows
    · rw [fillAllGo, if_pos hr, ih (r+1) _ idx (fun r' c' h1 h2 h3 => h r' c' (by omega) h2 h3),
        fillRowGo_ne]
      intro c' _ h5
      exact h r c' le_rfl hr h5
    · rw [fillAllGo, if_neg hr]

theorem fillAllGo_write (stride : ℕ) (f : ℕ → ℕ → ℚ) (rows cols : ℕ) (hsc : cols ≤ stride) :
    ∀ fuel r buf r₀ c₀, rows ≤ r + fuel → r ≤ r₀ → r₀ < rows → c₀ < cols →
      fillAllGo stride f rows cols fuel r buf (r₀*stride+c₀) = f r₀ c₀ := by
  intro fuel
  induction fuel with
  | zero => intro r buf r₀ c₀ h1 h2 h3 h4; omega
  | succ fuel ih =>
    intro r buf r₀ c₀ h1 h2 h3 h4
    have hr : r < rows := by omega
    rw [fillAllGo, if_pos hr]
    rcases Nat.eq_or_lt_of_le h2 with rfl | hlt
    · rw [fillAllGo_ne]
      · exact fillRowGo_write stride f cols r cols 0 buf c₀ (by omega) (by omega) h4
      · intro r' c' h5 h6 h7
        intro hcontra
        have := (flatIdx_inj (n := stride) (by omega) (by omega)).mp hcontra
        omega
    · exact ih (r+1) _ r₀ c₀ (by omega) (by omega) h3 h4

theorem fillAll_write (stride : ℕ) (f : ℕ → ℕ → ℚ) (rows cols : ℕ) (hsc : cols ≤ stride)
    {r c : ℕ} (hr : r < rows) (hc : c < cols) :
    fillAll stride f rows cols (r*stride+c) = f r c :=
  fillAllGo_write stride f rows cols hsc rows 0 _ r c (by omega) (by omega) hr hc

theorem scalRowGo_zero (stride : ℕ) (scal : ℚ) (r cols : ℕ) :
    ∀ fuel c buf, (∀ idx, buf idx = 0) → ∀ idx, scalRowGo stride scal r cols fuel c buf idx = 0 := by
  intro fuel
  induction fuel with
  | zero => intro c buf h idx; exact h idx
  | succ fuel ih =>
    intro c buf h idx
    by_cases hc : c < cols
    · rw [scalRowGo, if_pos hc]
      refine ih (c+1) _ ?_ idx
      intro t
      by_cases ht : t = r*stride+c
      · subst ht; rw [setIdx_self, h, zero_mul]
      · rw [setIdx_ne _ _ _ ht]; exact h t
    · rw [scalRowGo, if_neg hc]; exact h idx

theorem scalGo_zero (stride : ℕ) (scal : ℚ) (rows cols : ℕ) :
    ∀ fuel r buf, (∀ idx, buf idx = 0) → ∀ idx, scalGo stride scal rows cols fuel r buf idx = 0 := by
  intro fuel
  induction fuel with
  | zero => intro r buf h idx; exact h idx
  | succ fuel ih =>
    intro r buf h idx
    by_cases hr : r < rows
    · rw [scalGo, if_pos hr]
      exact ih (r+1) _ (scalRowGo_zero stride scal r cols cols 0 buf h) idx
    · rw [scalGo, if_neg hr]; exact h idx

/-- Every position of a `ScalarMultiply` result buffer is zero. -/
theorem scalarMultiply_buffer_zero (m : Matrix) (scal : ℚ) (idx : ℕ) :
    (m.ScalarMultiply scal).M idx = 0 :=
  scalGo_zero _ _ _ _ _ _ _ (fun _ => rfl) idx

theorem neg_buffer_zero (m : Matrix) (idx : ℕ) : m.Neg.M idx = 0 :=
  scalarMultiply_buffer_zero m (-1) idx

theorem neg_get_zero (m : Matrix) (r c : ℕ) : m.Neg.Get r c = 0 :=
  scalarMultiply_buffer_zero m (-1) _

/-! ### C4: ScalarMultiply returns an all-zero matrix -/

/-- C4: for every matrix `A` and scalar `k`, every element of
`ScalarMultiply(A, k)` is `0.0`: the result buffer is freshly zero-allocated
and the loop multiplies it in place, so the result is identically zero
regardless of `k`.  Stated for the whole buffer (hence for every in-range
element as well). -/
theorem C4_scalarMultiply_all_zero (m : Matrix) (scal : ℚ) :
    (∀ idx, (m.ScalarMultiply scal).M idx = 0) ∧
    (∀ r c, (m.ScalarMultiply scal).Get r c = 0) := by
  refine ⟨fun idx => scalarMultiply_buffer_zero m scal idx, fun r c => ?_⟩
  unfold Matrix.Get
  exact scalarMultiply_buffer_zero m scal _

/-! ### C6: Add -/

theorem add_shape_mismatch (m inM : Matrix)
    (h : ¬(inM.NumberOfColumns = m.NumberOfColumns ∧ inM.NumberOfRows = m.NumberOfRows)) :
    m.Add inM = .error ⟨errorCannotAdd, ""⟩ := by
  unfold Matrix.Add
  rw [if_pos]
  tauto

theorem add_ok (m inM : Matrix)
    (h : inM.NumberOfColumns = m.NumberOfColumns ∧ inM.NumberOfRows = m.NumberOfRows) :
    m.Add inM = .ok ⟨m.NumberOfColumns, m.NumberOfRows,
      fillAll m.NumberOfRows
        (fun r c => m.M (r * m.NumberOfColumns + c) + inM.M (r * inM.NumberOfColumns + c))
        m.NumberOfRows m.NumberOfColumns⟩ := by
  unfold Matrix.Add
  rw [if_neg]
  tauto

/-- The `Add`/`ScalarMultiply` write loops stay within the allocated buffer
exactly when the operand is not tall: `rows ≤ 1`, `cols = 0`, or
`rows ≤ cols`.  Otherwise the write at `(rows-1, cols-1)` already leaves the
buffer, which is where the Go runtime panics. -/
theorem addLoopInBounds_iff (rows cols : ℕ) :
    addLoopInBounds rows cols ↔ (rows ≤ 1 ∨ cols = 0 ∨ rows ≤ cols) := by
  constructor
  · intro h
    by_contra hcon
    push_neg at hcon
    obtain ⟨h1, h2, h3⟩ := hcon
    have hlast := h (rows-1) (cols-1) (by omega) (by omega)
    have h5 : rows * (cols+1) ≤ rows * rows := Nat.mul_le_mul_left rows (by omega)
    have h6 : (rows-1)*rows + rows = rows*rows := by
      have h7 : (rows-1) + 1 = rows := by omega
      calc (rows-1)*rows + rows = ((rows-1)+1)*rows := by ring
        _ = rows*rows := by rw [h7]
    have h8 : rows * (cols+1) = rows*cols + rows := by ring
    omega
  · intro h row col hrow hcol
    rcases h with h | h | h
    · have h1 : rows = 1 := by omega
      subst h1
      omega
    · omega
    · obtain ⟨a, rfl⟩ : ∃ a, rows = a + 1 := ⟨rows - 1, by omega⟩
      have h4 : row * a ≤ a * a := Nat.mul_le_mul_right a (by omega)
      have h5 : a * (a+1) ≤ a * cols := Nat.mul_le_mul_left a (by omega)
      have h6 : a * (a+1) = a * a + a := by ring
      have h7 : row * (a+1) = row * a + row := by ring
      have h8 : (a+1) * cols = a * cols + cols := by ring
      omega

/-- Shared helper for C5 and C6: on equal shapes the modelled `Add` yields the
swapped-dimensions matrix, with element-wise-sum entries in the square case.
(Faithful to Go on every input whose write loop stays in bounds; see
`addLoopInBounds`.) -/
theorem add_ok_entries (A B : Matrix)
    (h1 : A.NumberOfRows = B.NumberOfRows) (h2 : A.NumberOfColumns = B.NumberOfColumns) :
    ∃ C, A.Add B = .ok C ∧
      C.NumberOfRows = A.NumberOfColumns ∧ C.NumberOfColumns = A.NumberOfRows ∧
      (A.IsSquare → ∀ r c, r < A.NumberOfRows → c < A.NumberOfColumns →
        C.Get r c = A.Get r c + B.Get r c) := by
  refine ⟨_, add_ok A B ⟨h2.symm, h1.symm⟩, rfl, rfl, ?_⟩
  intro hsq r c hr hc
  have hn : A.NumberOfColumns = A.NumberOfRows := hsq
  unfold Matrix.Get
  show fillAll A.NumberOfRows _ A.NumberOfRows A.NumberOfColumns
    (r * A.NumberOfRows + c) = _
  rw [fillAll_write A.NumberOfRows _ A.NumberOfRows A.NumberOfColumns (by omega) hr hc]

/-- C6 counterexample input: `A = [[1, 2]]`, `B = [[3, 4]]` (both `1 × 2`). -/
def addCexA : Matrix := ⟨1, 2, fun t => if t = 0 then 1 else if t = 1 then 2 else 0⟩

def addCexB : Matrix := ⟨1, 2, fun t => if t = 0 then 3 else if t = 1 then 4 else 0⟩

/-- C6 counterexample: `Add` on two `1 × 2` matrices succeeds but returns a
`2 × 1` matrix — not a matrix "with the same row and column counts as A"
(`A` has 1 row; the result has 2). -/
theorem C6_counterexample :
    (addCexA.Add addCexB).map Matrix.NumberOfRows = .ok 2 ∧
    (addCexA.Add addCexB).map Matrix.NumberOfColumns = .ok 1 ∧
    addCexA.NumberOfRows = 1 ∧ addCexA.NumberOfColumns = 2 ∧
    addCexB.NumberOfRows = 1 ∧ addCexB.NumberOfColumns = 2 := by
  refine ⟨?_, ?_, rfl, rfl, rfl, rfl⟩ <;> rfl

/-- C6 (amended): `Add` fails with the `DimensionMismatch` error
(`errorCannotAdd`) exactly when the shapes differ.  For equal shapes on which
every write of the fill loop stays within the allocated `rows*cols` buffer
(`rows ≤ 1`, `cols = 0`, or `rows ≤ cols`), `Add` succeeds, but the result has
`A.NumberOfColumns` rows and `A.NumberOfRows` columns (the source allocates
the result with swapped dimensions); when `A` is additionally square, entry
`(r, c)` of the result is `A.Get r c + B.Get r c` for all in-range `r, c`.
For the remaining equal shapes (tall: `rows > cols ≥ 1`, `rows ≥ 2`) some
write index reaches the buffer length — the Go runtime panics with an
index-out-of-range error and no matrix is returned. -/
theorem C6_add_amended (A B : Matrix) :
    (A.NumberOfRows = B.NumberOfRows ∧ A.NumberOfColumns = B.NumberOfColumns →
      (addLoopInBounds A.NumberOfRows A.NumberOfColumns →
        ∃ C, A.Add B = .ok C ∧
          C.NumberOfRows = A.NumberOfColumns ∧ C.NumberOfColumns = A.NumberOfRows ∧
          (A.IsSquare → ∀ r c, r < A.NumberOfRows → c < A.NumberOfColumns →
            C.Get r c = A.Get r c + B.Get r c)) ∧
      (¬addLoopInBounds A.NumberOfRows A.NumberOfColumns →
        ∃ row col, row < A.NumberOfRows ∧ col < A.NumberOfColumns ∧
          A.NumberOfRows * A.NumberOfColumns ≤ row * A.NumberOfRows + col)) ∧
    (¬(A.NumberOfRows = B.NumberOfRows ∧ A.NumberOfColumns = B.NumberOfColumns) →
      A.Add B = .error ⟨errorCannotAdd, ""⟩) := by
  constructor
  · rintro ⟨h1, h2⟩
    constructor
    · intro _hb
      exact add_ok_entries A B h1 h2
    · intro hb
      unfold addLoopInBounds at hb
      push_neg at hb
      obtain ⟨row, col, hrow, hcol, hge⟩ := hb
      exact ⟨row, col, hrow, hcol, hge⟩
  · intro h
    exact add_shape_mismatch A B (by tauto)

/-! ### C5: Subtract -/

/-- C5 counterexample input: `A = [[2]]`, `B = [[1]]` (both `1 × 1`). -/
def subCexA : Matrix := ⟨1, 1, fun t => if t = 0 then 2 else 0⟩

def subCexB : Matrix := ⟨1, 1, fun t => if t = 0 then 1 else 0⟩

/-- C5 counterexample: `Subtract([[2]], [[1]])` succeeds but its only entry is
`2`, not the element-wise difference `2 - 1 = 1`: `Neg(B)` is the all-zero
matrix (see C4), so `Subtract` computes `A + 0 = A`. -/
theorem C5_counterexample :
    (subCexA.Subtract subCexB).map (fun C => C.Get 0 0) = .ok 2 ∧
    subCexA.Get 0 0 - subCexB.Get 0 0 = 1 ∧ (2 : ℚ) ≠ 1 := by
  refine ⟨?_, ?_, by norm_num⟩
  · obtain ⟨C, hC, hrows, hcols, hsq⟩ := add_ok_entries subCexA subCexB.Neg rfl rfl
    have hok : subCexA.Subtract subCexB = .ok C := by
      unfold Matrix.Subtract
      rw [if_neg (by simp [subCexA, subCexB])]
      exact hC
    rw [hok]
    have h00 := hsq rfl 0 0 (by norm_num [subCexA]) (by norm_num [subCexA])
    simp only [Except.map]
    rw [h00, neg_get_zero]
    norm_num [subCexA, Matrix.Get]
  · norm_num [subCexA, subCexB, Matrix.Get]

/-- C5 (amended): for unequal shapes `Subtract` fails with the
`DimensionMismatch` error (`errorCannotAdd`).  For equal shapes it computes
`Add(A, Neg(B))` where `Neg(B)` is the all-zero matrix with swapped
dimensions, so: if `A` is square it succeeds and every in-range entry of the
result equals the corresponding entry of `A` (not `A - B`); if `A` is
non-square and the `ScalarMultiply` write loop inside `Neg` stays within its
buffer (`rows ≤ 1`, `cols = 0`, or `rows ≤ cols`), it fails with the
`DimensionMismatch` error because `Neg(B)`'s dimensions are swapped; for the
remaining equal shapes (tall: `rows > cols ≥ 1`, `rows ≥ 2`) some write index
of `Neg`'s loop reaches the buffer length — the Go runtime panics inside
`Neg` and no value (error included) is returned. -/
theorem C5_subtract_amended (A B : Matrix) :
    (A.NumberOfRows = B.NumberOfRows ∧ A.NumberOfColumns = B.NumberOfColumns →
      (A.IsSquare → ∃ C, A.Subtract B = .ok C ∧
        C.NumberOfRows = A.NumberOfRows ∧ C.NumberOfColumns = A.NumberOfColumns ∧
        ∀ r c, r < A.NumberOfRows → c < A.NumberOfColumns → C.Get r c = A.Get r c) ∧
      (¬A.IsSquare → addLoopInBounds B.NumberOfRows B.NumberOfColumns →
        A.Subtract B = .error ⟨errorCannotAdd, ""⟩) ∧
      (¬addLoopInBounds B.NumberOfRows B.NumberOfColumns →
        ∃ row col, row < B.NumberOfRows ∧ col < B.NumberOfColumns ∧
          B.NumberOfRows * B.NumberOfColumns ≤ row * B.NumberOfRows + col)) ∧
    (¬(A.NumberOfRows = B.NumberOfRows ∧ A.NumberOfColumns = B.NumberOfColumns) →
      A.Subtract B = .error ⟨errorCannotAdd, ""⟩) := by
  refine ⟨?_, ?_⟩
  · rintro ⟨h1, h2⟩
    have hBneg_cols : B.Neg.NumberOfColumns = B.NumberOfRows := rfl
    have hBneg_rows : B.Neg.NumberOfRows = B.NumberOfColumns := rfl
    refine ⟨?_, ?_, ?_⟩
    · intro hsq
      have hn : A.NumberOfColumns = A.NumberOfRows := hsq
      obtain ⟨C, hC, hrows, hcols, hsqe⟩ := add_ok_entries A B.Neg (by omega) (by omega)
      refine ⟨C, ?_, by omega, by omega, ?_⟩
      · unfold Matrix.Subtract
        rw [if_neg (by omega)]
        exact hC
      · intro r c hr hc
        rw [hsqe hsq r c hr hc, neg_get_zero, add_zero]
    · intro hsq _hb
      have hn : A.NumberOfColumns ≠ A.NumberOfRows := hsq
      unfold Matrix.Subtract
      rw [if_neg (by omega)]
      exact add_shape_mismatch A B.Neg (by omega)
    · intro hb
      unfold addLoopInBounds at hb
      push_neg at hb
      obtain ⟨row, col, hrow, hcol, hge⟩ := hb
      exact ⟨row, col, hrow, hcol, hge⟩
  · intro h
    unfold Matrix.Subtract
    rw [if_pos (by tauto)]

/-! ### C8: SubMatrix -/

/-- C8 counterexample input: the `4 × 2` matrix whose flat buffer holds
`1, 2, 3, 4, 5, 6, 7, 8` (entry value = flat offset + 1). -/
def subMatCex : Matrix := ⟨4, 2, fun t => (t : ℚ) + 1⟩

/-- C8 counterexample: `SubMatrix(0, 0, 2, 1)` on the `4 × 2` matrix above is
an in-range call with `row == 0` (the claim's condition) and `nCols = 1 ≠ 2`,
yet entry `(1, 0)` of the result is `2` (the original's entry `(0, 1)`), not
the true sub-block value `original.Get(1, 0) = 3`: the slice wraps within
row-major storage.  (In Go the slice stays within the backing array here, so
the call returns rather than panicking.) -/
theorem C8_counterexample :
    subMatCex.NumberOfRows = 4 ∧ subMatCex.NumberOfColumns = 2 ∧
    (subMatCex.SubMatrix 0 0 2 1).Get 1 0 = 2 ∧
    subMatCex.Get (0+1) (0+0) = 3 := by
  refine ⟨rfl, rfl, ?_, ?_⟩ <;> norm_num [subMatCex, Matrix.SubMatrix, Matrix.Get]

/-- C8 (amended): an in-range `SubMatrix(row, col, nRows, nCols)` call returns
the true sub-block — entry `(r, c)` equals the original's entry
`(row + r, col + c)` — when `nCols` equals the original's column count **or
`nRows ≤ 1`** (the claim's condition `row == 0` does not make the slice
correct; only the first sub-block row is contiguous in row-major storage). -/
theorem C8_subMatrix_amended (m : Matrix) (row col nRows nCols : ℕ)
    (hrin : row + nRows ≤ m.NumberOfRows) (hcin : col + nCols ≤ m.NumberOfColumns)
    (hcond : nCols = m.NumberOfColumns ∨ nRows ≤ 1)
    (r c : ℕ) (hr : r < nRows) (hc : c < nCols) :
    (m.SubMatrix row col nRows nCols).Get r c = m.Get (row + r) (col + c) := by
  unfold Matrix.SubMatrix Matrix.Get
  simp only
  rcases hcond with h | h
  · subst h
    congr 1
    ring
  · have : r = 0 := by omega
    subst this
    congr 1
    ring

/-! ### Witnesses for the hypothesis-bearing theorems above -/

/-- Tall (`2 × 1`) inputs on which the `Add`/`Neg` write loops leave the
allocated buffer, so the Go runtime panics. -/
def tallCexA : Matrix := ⟨2, 1, fun t => if t = 0 then 1 else if t = 1 then 2 else 0⟩

def tallCexB : Matrix := ⟨2, 1, fun t => if t = 0 then 3 else if t = 1 then 4 else 0⟩

/-- Witness for C6 (amended): on the square `1 × 1` input the success branch
produces the element-wise sum; on the tall `2 × 1` input the panic branch
exhibits the out-of-range write index (`1*2+0 = 2` into a length-2 buffer). -/
theorem C6_witness :
    (∃ C, subCexA.Add subCexB = .ok C ∧
      C.NumberOfRows = subCexA.NumberOfColumns ∧ C.NumberOfColumns = subCexA.NumberOfRows ∧
      (subCexA.IsSquare → ∀ r c, r < subCexA.NumberOfRows → c < subCexA.NumberOfColumns →
        C.Get r c = subCexA.Get r c + subCexB.Get r c)) ∧
    (∃ row col, row < tallCexA.NumberOfRows ∧ col < tallCexA.NumberOfColumns ∧
      tallCexA.NumberOfRows * tallCexA.NumberOfColumns ≤ row * tallCexA.NumberOfRows + col) := by
  constructor
  · exact ((C6_add_amended subCexA subCexB).1 ⟨rfl, rfl⟩).1
      (show addLoopInBounds 1 1 by intro row col h1 h2; omega)
  · exact ((C6_add_amended tallCexA tallCexB).1 ⟨rfl, rfl⟩).2
      (show ¬addLoopInBounds 2 1 by
        intro h
        have hq := h 1 0 (by omega) (by omega)
        omega)

/-- Witness for C5 (amended): on the square `1 × 1` input `Subtract` returns
`A` unchanged; on the tall `2 × 1` input the panic branch exhibits the
out-of-range write index inside `Neg`. -/
theorem C5_witness :
    (∃ C, subCexA.Subtract subCexB = .ok C ∧
      C.NumberOfRows = subCexA.NumberOfRows ∧ C.NumberOfColumns = subCexA.NumberOfColumns ∧
      ∀ r c, r < subCexA.NumberOfRows → c < subCexA.NumberOfColumns →
        C.Get r c = subCexA.Get r c) ∧
    (∃ row col, row < tallCexB.NumberOfRows ∧ col < tallCexB.NumberOfColumns ∧
      tallCexB.NumberOfRows * tallCexB.NumberOfColumns ≤ row * tallCexB.NumberOfRows + col) := by
  constructor
  · exact ((C5_subtract_amended subCexA subCexB).1 ⟨rfl, rfl⟩).1 rfl
  · exact ((C5_subtract_amended tallCexA tallCexB).1 ⟨rfl, rfl⟩).2.2
      (show ¬addLoopInBounds 2 1 by
        intro h
        have hq := h 1 0 (by omega) (by omega)
        omega)

/-- Witness for C8 (amended): `SubMatrix(1, 0, 2, 2)` of the `4 × 2` matrix
(here `nCols` equals the original column count, so the slice is the true
sub-block): entry `(1, 1)` is the original's entry `(2, 1) = 6`. -/
theorem C8_witness :
    (subMatCex.SubMatrix 1 0 2 2).Get 1 1 = subMatCex.Get (1+1) (0+1) ∧
    subMatCex.Get (1+1) (0+1) = 6 := by
  constructor
  · exact C8_subMatrix_amended subMatCex 1 0 2 2 (by norm_num [subMatCex])
      (by norm_num [subMatCex]) (Or.inl rfl) 1 1 (by norm_num) (by norm_num)
  · norm_num [subMatCex, Matrix.Get]

/-! ### LU decomposition: loop characterization -/

theorem sumR_congr {i : ℕ} {f g : ℕ → ℚ} (h : ∀ j, j < i → f j = g j) : sumR i f = sumR i g :=
  Finset.sum_congr rfl (fun j hj => h j (Finset.mem_range.mp hj))

theorem luUpperGo_ne (a l : ℕ → ℚ) (n i : ℕ) :
    ∀ fuel k u idx, (∀ k', k ≤ k' → k' < n → idx ≠ i*n+k') →
      luUpperGo a l n i fuel k u idx = u idx := by
  intro fuel
  induction fuel with
  | zero => intro k u idx _; rfl
  | succ fuel ih =>
    intro k u idx h
    by_cases hk : k < n
    · rw [luUpperGo, if_pos hk, ih (k+1) _ idx (fun k' h1 h2 => h k' (by omega) h2),
        setIdx_ne _ _ _ (h k le_rfl hk)]
    · rw [luUpperGo, if_neg hk]

theorem luUpperGo_write (a l : ℕ → ℚ) (n i : ℕ) (hi : i < n) :
    ∀ fuel k u k₀, n ≤ k + fuel → k ≤ k₀ → k₀ < n →
      luUpperGo a l n i fuel k u (i*n+k₀) =
        a (i*n+k₀) - sumR i (fun j => l (i*n+j) * u (j*n+k₀)) := by
  intro fuel
  induction fuel with
  | zero => intro k u k₀ h1 h2 h3; omega
  | succ fuel ih =>
    intro k u k₀ h1 h2 h3
    have hk : k < n := by omega
    rw [luUpperGo, if_pos hk]
    rcases Nat.eq_or_lt_of_le h2 with rfl | hlt
    · rw [luUpperGo_ne]
      · exact setIdx_self _ _ _
      · intro k' h4 h5
        intro hcontra
        have := (flatIdx_inj (n := n) h3 h5).mp hcontra
        omega
    · rw [ih (k+1) _ k₀ (by omega) (by omega) h3]
      congr 1
      refine sumR_congr (fun j hj => ?_)
      rw [setIdx_ne]
      intro hcontra
      have := (flatIdx_inj (n := n) h3 hk).mp hcontra
      omega

theorem luLowerGo_ne (a u : ℕ → ℚ) (n i : ℕ) :
    ∀ fuel k l idx, (∀ k', k ≤ k' → k' < n → idx ≠ k'*n+i) →
      luLowerGo a u n i fuel k l idx = l idx := by
  intro fuel
  induction fuel with
  | zero => intro k l idx _; rfl
  | succ fuel ih =>
    intro k l idx h
    by_cases hk : k < n
    · rw [luLowerGo, if_pos hk]
      by_cases hki : k = i
      · subst hki
        rw [if_pos rfl, ih (k+1) _ idx (fun k' h1 h2 => h k' (by omega) h2),
          setIdx_ne _ _ _ (h k le_rfl hk)]
      · rw [if_neg hki, ih (k+1) _ idx (fun k' h1 h2 => h k' (by omega) h2),
          setIdx_ne _ _ _ (h k le_rfl hk)]
    · rw [luLowerGo, if_neg hk]

theorem luLowerGo_diag (a u : ℕ → ℚ) (n i : ℕ) (hi : i < n) :
    ∀ fuel k l, n ≤ k + fuel → k ≤ i →
      luLowerGo a u n i fuel k l (i*n+i) = 1 := by
  intro fuel
  induction fuel with
  | zero => intro k l h1 h2; omega
  | succ fuel ih =>
    intro k l h1 h2
    have hk : k < n := by omega
    rw [luLowerGo, if_pos hk]
    rcases Nat.eq_or_lt_of_le h2 with rfl | hlt
    · rw [if_pos rfl, luLowerGo_ne]
      · exact setIdx_self _ _ _
      · intro k' h4 h5
        intro hcontra
        have := (flatIdx_inj (n := n) hi hi).mp hcontra
        omega
    · rw [if_neg (by omega)]
      exact ih (k+1) _ (by omega) (by omega)

theorem luLowerGo_write (a u : ℕ → ℚ) (n i : ℕ) (hi : i < n) :
    ∀ fuel k l k₀, n ≤ k + fuel → k ≤ k₀ → k₀ < n → k₀ ≠ i →
      luLowerGo a u n i fuel k l (k₀*n+i) =
        (a (k₀*n+i) - sumR i (fun j => l (k₀*n+j) * u (j*n+i))) / u (i*n+i) := by
  intro fuel
  induction fuel with
  | zero => intro k l k₀ h1 h2 h3 h4; omega
  | succ fuel ih =>
    intro k l k₀ h1 h2 h3 h4
    have hk : k < n := by omega
    rw [luLowerGo, if_pos hk]
    rcases Nat.eq_or_lt_of_le h2 with rfl | hlt
    · rw [if_neg h4, luLowerGo_ne]
      · exact setIdx_self _ _ _
      · intro k' h5 h6
        intro hcontra
        have := (flatIdx_inj (n := n) hi hi).mp hcontra
        omega
    · by_cases hki : k = i
      · subst hki
        rw [if_pos rfl, ih (k+1) _ k₀ (by omega) (by omega) h3 h4]
        congr 2
        refine sumR_congr (fun j hj => ?_)
        rw [setIdx_ne]
        intro hcontra
        have := (flatIdx_inj (n := n) (by omega) hi).mp hcontra
        omega
      · rw [if_neg hki, ih (k+1) _ k₀ (by omega) (by omega) h3 h4]
        congr 2
        refine sumR_congr (fun j hj => ?_)
        rw [setIdx_ne]
        intro hcontra
        have := (flatIdx_inj (n := n) (by omega) hi).mp hcontra
        omega

/-- Facts established about the `(l, u)` buffers after the LU outer loop has
processed iterations `0..t-1`: the Doolittle recurrences hold for the written
region, and everything else is still zero. -/
structure LUFacts (a : ℕ → ℚ) (n : ℕ) (l u : ℕ → ℚ) (t : ℕ) : Prop where
  uRec : ∀ i k, i < t → i ≤ k → k < n →
    u (i*n+k) = a (i*n+k) - sumR i (fun j => l (i*n+j) * u (j*n+k))
  lDiag : ∀ i, i < t → l (i*n+i) = 1
  lRec : ∀ i k, i < t → i < k → k < n →
    l (k*n+i) = (a (k*n+i) - sumR i (fun j => l (k*n+j) * u (j*n+i))) / u (i*n+i)
  uZero : ∀ idx, (∀ i k, i < t → i ≤ k → k < n → idx ≠ i*n+k) → u idx = 0
  lZero : ∀ idx, (∀ i k, i < t → i ≤ k → k < n → idx ≠ k*n+i) → l idx = 0

theorem luOuterGo_facts (a : ℕ → ℚ) (n : ℕ) :
    ∀ fuel t lu, n ≤ t + fuel → LUFacts a n lu.1 lu.2 t →
      LUFacts a n (luOuterGo a n fuel t lu).1 (luOuterGo a n fuel t lu).2 n := by
  intro fuel
  induction fuel with
  | zero =>
    intro t lu h1 F
    refine ⟨fun i k h2 h3 h4 => F.uRec i k (by omega) h3 h4,
            fun i h2 => F.lDiag i (by omega),
            fun i k h2 h3 h4 => F.lRec i k (by omega) h3 h4,
            fun idx h => F.uZero idx (fun i k h2 h3 h4 => h i k (by omega) h3 h4),
            fun idx h => F.lZero idx (fun i k h2 h3 h4 => h i k (by omega) h3 h4)⟩
  | succ fuel ih =>
    intro t lu h1 F
    by_cases ht : t < n
    · rw [luOuterGo, if_pos ht]
      set l := lu.1 with hl
      set u := lu.2 with hu
      set u' := luUpperGo a l n t (n-t) t u with hu'
      set l' := luLowerGo a u' n t (n-t) t l with hl'
      -- preservation of old slots
      have pu : ∀ r k', k' < n → r ≠ t → u' (r*n+k') = u (r*n+k') := by
        intro r k' hk' hrt
        rw [hu', luUpperGo_ne]
        intro k'' h4 h5
        intro hcontra
        have := (flatIdx_inj (n := n) hk' h5).mp hcontra
        omega
      have pl : ∀ r c, c < n → c ≠ t → l' (r*n+c) = l (r*n+c) := by
        intro r c hc hct
        rw [hl', luLowerGo_ne]
        intro k'' h4 h5
        intro hcontra
        have := (flatIdx_inj (n := n) hc ht).mp hcontra
        omega
      -- new row of u
      have nu : ∀ k', t ≤ k' → k' < n →
          u' (t*n+k') = a (t*n+k') - sumR t (fun j => l (t*n+j) * u (j*n+k')) := by
        intro k' h4 h5
        rw [hu']
        exact luUpperGo_write a l n t ht (n-t) t u k' (by omega) h4 h5
      have nldiag : l' (t*n+t) = 1 := by
        rw [hl']
        exact luLowerGo_diag a u' n t ht (n-t) t l (by omega) le_rfl
      have nl : ∀ k', t < k' → k' < n →
          l' (k'*n+t) = (a (k'*n+t) - sumR t (fun j => l (k'*n+j) * u' (j*n+t))) / u' (t*n+t) := by
        intro k' h4 h5
        rw [hl']
        exact luLowerGo_write a u' n t ht (n-t) t l k' (by omega) (by omega) h5 (by omega)
      have Fnew : LUFacts a n l' u' (t+1) := by
        refine ⟨?_, ?_, ?_, ?_, ?_⟩
        · intro i k h2 h3 h4
          rcases Nat.lt_or_ge i t with hit | hit
          · rw [pu i k h4 (by omega), F.uRec i k hit h3 h4]
            congr 1
            refine sumR_congr (fun j hj => ?_)
            rw [pl i j (by omega) (by omega), pu j k h4 (by omega)]
          · have hit2 : i = t := by omega
            rw [hit2, nu k (by omega) h4]
            congr 1
            refine sumR_congr (fun j hj => ?_)
            rw [pl t j (by omega) (by omega), pu j k h4 (by omega)]
        · intro i h2
          rcases Nat.lt_or_ge i t with hit | hit
          · rw [pl i i (by omega) (by omega)]
            exact F.lDiag i hit
          · have hit2 : i = t := by omega
            rw [hit2]
            exact nldiag
        · intro i k h2 h3 h4
          rcases Nat.lt_or_ge i t with hit | hit
          · rw [pl k i (by omega) (by omega), F.lRec i k hit h3 h4]
            rw [pu i i (by omega) (by omega)]
            congr 2
            refine sumR_congr (fun j hj => ?_)
            rw [pl k j (by omega) (by omega), pu j i (by omega) (by omega)]
          · have hit2 : i = t := by omega
            rw [hit2, nl k (by omega) h4]
            congr 2
            refine sumR_congr (fun j hj => ?_)
            rw [pl k j (by omega) (by omega)]
        · intro idx h
          have h0 : ∀ k', t ≤ k' → k' < n → idx ≠ t*n+k' := by
            intro k' h4 h5
            exact h t k' (by omega) h4 h5
          rw [hu', luUpperGo_ne a l n t (n-t) t u idx h0]
          exact F.uZero idx (fun i k h2 h3 h4 => h i k (by omega) h3 h4)
        · intro idx h
          have h0 : ∀ k', t ≤ k' → k' < n → idx ≠ k'*n+t := by
            intro k' h4 h5
            exact h t k' (by omega) h4 h5
          rw [hl', luLowerGo_ne a u' n t (n-t) t l idx h0]
          exact F.lZero idx (fun i k h2 h3 h4 => h i k (by omega) h3 h4)
      exact ih (t+1) (l', u') (by omega) Fnew
    · rw [luOuterGo, if_neg ht]
      have : t = n ∨ n < t := by omega
      refine ⟨fun i k h2 h3 h4 => F.uRec i k (by omega) h3 h4,
              fun i h2 => F.lDiag i (by omega),
              fun i k h2 h3 h4 => F.lRec i k (by omega) h3 h4,
              fun idx h => F.uZero idx (fun i k h2 h3 h4 => h i k (by omega) h3 h4),
              fun idx h => F.lZero idx (fun i k h2 h3 h4 => h i k (by omega) h3 h4)⟩

/-- The LU facts hold for the final buffers of `luPair`. -/
theorem luPair_facts (m : Matrix) :
    LUFacts m.M m.NumberOfColumns (luPair m).1 (luPair m).2 m.NumberOfColumns := by
  refine luOuterGo_facts m.M m.NumberOfColumns m.NumberOfColumns 0 _ (by omega) ?_
  exact ⟨fun i k h => by omega, fun i h => by omega, fun i k h => by omega,
         fun idx _ => rfl, fun idx _ => rfl⟩

theorem sumR_eq_zero {i : ℕ} {f : ℕ → ℚ} (h : ∀ j, j < i → f j = 0) : sumR i f = 0 :=
  Finset.sum_eq_zero (fun j hj => h j (Finset.mem_range.mp hj))

theorem lu_l_diag (m : Matrix) {i : ℕ} (hi : i < m.NumberOfColumns) :
    (luPair m).1 (i * m.NumberOfColumns + i) = 1 :=
  (luPair_facts m).lDiag i hi

theorem lu_u_lower_zero (m : Matrix) {i k : ℕ} (hk : k < i) (hi : i < m.NumberOfColumns) :
    (luPair m).2 (i * m.NumberOfColumns + k) = 0 := by
  refine (luPair_facts m).uZero _ (fun i' k' h1 h2 h3 h4 => ?_)
  have := (flatIdx_inj (n := m.NumberOfColumns) (by omega) h3).mp h4
  omega

theorem lu_l_upper_zero (m : Matrix) {i k : ℕ} (hik : i < k) (hk : k < m.NumberOfColumns) :
    (luPair m).1 (i * m.NumberOfColumns + k) = 0 := by
  refine (luPair_facts m).lZero _ (fun i' k' h1 h2 h3 h4 => ?_)
  have := (flatIdx_inj (n := m.NumberOfColumns) hk h1).mp h4
  omega

/-- The central LU correctness fact: when every pivot `u[i][i]` is nonzero,
the entry `(r, c)` of the product of the computed `l` and `u` buffers equals
the corresponding entry of `m`. -/
theorem lu_mul_entry (m : Matrix)
    (hpiv : ∀ i, i < m.NumberOfColumns →
      (luPair m).2 (i * m.NumberOfColumns + i) ≠ 0)
    {r c : ℕ} (hr : r < m.NumberOfColumns) (hc : c < m.NumberOfColumns) :
    sumR m.NumberOfColumns
      (fun k => (luPair m).1 (r * m.NumberOfColumns + k) *
                (luPair m).2 (k * m.NumberOfColumns + c)) =
      m.M (r * m.NumberOfColumns + c) := by
  have F := luPair_facts m
  rcases le_or_lt r c with hrc | hrc
  · -- r ≤ c : terms with k > r vanish since l is lower triangular
    have hshrink : sumR m.NumberOfColumns
        (fun k => (luPair m).1 (r*m.NumberOfColumns+k) * (luPair m).2 (k*m.NumberOfColumns+c)) =
        sumR (r+1)
        (fun k => (luPair m).1 (r*m.NumberOfColumns+k) * (luPair m).2 (k*m.NumberOfColumns+c)) := by
      refine (Finset.sum_subset (Finset.range_subset.mpr (by omega)) ?_).symm
      intro x hx hnx
      have hx1 := Finset.mem_range.mp hx
      have hx2 : r < x := by
        by_contra hcon
        exact hnx (Finset.mem_range.mpr (by omega))
      rw [lu_l_upper_zero m hx2 hx1, zero_mul]
    rw [hshrink, sumR, Finset.sum_range_succ, ← sumR]
    rw [lu_l_diag m (by omega), one_mul, F.uRec r c (by omega) hrc hc]
    ring
  · -- c < r : terms with k > c vanish since u is upper triangular
    have hshrink : sumR m.NumberOfColumns
        (fun k => (luPair m).1 (r*m.NumberOfColumns+k) * (luPair m).2 (k*m.NumberOfColumns+c)) =
        sumR (c+1)
        (fun k => (luPair m).1 (r*m.NumberOfColumns+k) * (luPair m).2 (k*m.NumberOfColumns+c)) := by
      refine (Finset.sum_subset (Finset.range_subset.mpr (by omega)) ?_).symm
      intro x hx hnx
      have hx1 := Finset.mem_range.mp hx
      have hx2 : c < x := by
        by_contra hcon
        exact hnx (Finset.mem_range.mpr (by omega))
      rw [lu_u_lower_zero m hx2 hx1, mul_zero]
    rw [hshrink, sumR, Finset.sum_range_succ, ← sumR]
    rw [F.lRec c r (by omega) hrc (by omega),
      div_mul_cancel₀ _ (hpiv c (by omega))]
    ring

/-! ### C2: LU decomposition -/

/-- C2: `LUDecomposition` fails with the `NonSquareMatrix` error for every
non-square matrix; on a square matrix it returns without error matrices `L`
(unit diagonal, zero above the diagonal) and `U` (zero below the diagonal)
of the same shape as the input, and — whenever all Doolittle pivots `U[i][i]`
are nonzero — `L·U` reproduces every in-range entry of the input exactly
(exact rational arithmetic models "within 1e-9 relative tolerance"). -/
theorem C2_ludecomposition (m : Matrix) :
    (¬m.IsSquare → m.LUDecomposition = .error ⟨errorNonSquareMatrix, ""⟩) ∧
    (∀ L U, m.LUDecomposition = .ok (L, U) →
      L.NumberOfRows = m.NumberOfRows ∧ L.NumberOfColumns = m.NumberOfColumns ∧
      U.NumberOfRows = m.NumberOfRows ∧ U.NumberOfColumns = m.NumberOfColumns ∧
      (∀ i, i < m.NumberOfColumns → L.Get i i = 1) ∧
      (∀ r c, r < c → c < m.NumberOfColumns → L.Get r c = 0) ∧
      (∀ r c, c < r → r < m.NumberOfColumns → U.Get r c = 0) ∧
      ((∀ i, i < m.NumberOfColumns → U.Get i i ≠ 0) →
        ∃ P, L.Multiply U = .ok P ∧
          ∀ r c, r < m.NumberOfRows → c < m.NumberOfColumns →
            P.Get r c = m.Get r c)) := by
  constructor
  · intro h
    unfold Matrix.LUDecomposition
    rw [if_neg h]
  · intro L U hok
    unfold Matrix.LUDecomposition at hok
    by_cases hsq : m.IsSquare
    · rw [if_pos hsq] at hok
      simp only [Except.ok.injEq, Prod.mk.injEq] at hok
      obtain ⟨hL, hU⟩ := hok
      subst hL
      subst hU
      have hcr : m.NumberOfColumns = m.NumberOfRows := hsq
      refine ⟨rfl, rfl, rfl, rfl, ?_, ?_, ?_, ?_⟩
      · intro i hi
        exact lu_l_diag m hi
      · intro r c hrc hcn
        exact lu_l_upper_zero m hrc hcn
      · intro r c hcr2 hrn
        exact lu_u_lower_zero m hcr2 hrn
      · intro hpiv
        refine ⟨⟨m.NumberOfRows, m.NumberOfColumns,
          fillAll m.NumberOfColumns
            (fun i j => sumR m.NumberOfColumns
              (fun k => (luPair m).1 (i * m.NumberOfColumns + k) *
                        (luPair m).2 (k * m.NumberOfColumns + j)))
            m.NumberOfRows m.NumberOfColumns⟩, ?_, ?_⟩
        · unfold Matrix.Multiply
          rw [if_neg (show ¬(m.NumberOfColumns ≠ m.NumberOfRows) by omega)]
        · intro r c hr hc
          unfold Matrix.Get
          simp only
          rw [fillAll_write m.NumberOfColumns _ m.NumberOfRows m.NumberOfColumns le_rfl
            (by omega) (by omega)]
          exact lu_mul_entry m hpiv (by omega) (by omega)
    · rw [if_neg hsq] at hok
      exact absurd hok (by simp)

/-- C2 witness input: the `2 × 2` matrix `[[4, 3], [6, 3]]`. -/
def luWitA : Matrix :=
  ⟨2, 2, fun t => if t = 0 then 4 else if t = 1 then 3 else if t = 2 then 6 else if t = 3 then 3 else 0⟩

def luWitL : Matrix := ⟨2, 2, (luPair luWitA).1⟩

def luWitU : Matrix := ⟨2, 2, (luPair luWitA).2⟩

/-- Witness for C2 at `[[4, 3], [6, 3]]`: the decomposition succeeds, `L` has
unit diagonal and is lower triangular, `U` is upper triangular with nonzero
pivots (`4` and `-3/2`), and `L·U` reproduces the matrix. -/
theorem C2_witness :
    luWitA.LUDecomposition = .ok (luWitL, luWitU) ∧
    (∀ i, i < luWitA.NumberOfColumns → luWitL.Get i i = 1) ∧
    (∃ P, luWitL.Multiply luWitU = .ok P ∧
      ∀ r c, r < luWitA.NumberOfRows → c < luWitA.NumberOfColumns →
        P.Get r c = luWitA.Get r c) := by
  have h := (C2_ludecomposition luWitA).2 luWitL luWitU rfl
  have hpiv : ∀ i, i < luWitA.NumberOfColumns → luWitU.Get i i ≠ 0 := by
    intro i hi
    have hi2 : i < 2 := hi
    interval_cases i <;>
      norm_num [luWitU, luWitA, Matrix.Get, luPair, luOuterGo, luUpperGo, luLowerGo,
        setIdx, sumR, Finset.sum_range_succ]
  exact ⟨rfl, h.2.2.2.2.1, h.2.2.2.2.2.2.2 hpiv⟩

/-! ### C9: determinant of the identity -/

theorem identGo_ne (n : ℕ) :
    ∀ fuel j buf idx, (∀ j', j ≤ j' → j' < n → idx ≠ j'*n+j') →
      identGo n fuel j buf idx = buf idx := by
  intro fuel
  induction fuel with
  | zero => intro j buf idx _; rfl
  | succ fuel ih =>
    intro j buf idx h
    by_cases hj : j < n
    · rw [identGo, if_pos hj, ih (j+1) _ idx (fun j' h1 h2 => h j' (by omega) h2),
        setIdx_ne _ _ _ (h j le_rfl hj)]
    · rw [identGo, if_neg hj]

theorem identGo_diag (n : ℕ) :
    ∀ fuel j buf j₀, n ≤ j + fuel → j ≤ j₀ → j₀ < n →
      identGo n fuel j buf (j₀*n+j₀) = 1 := by
  intro fuel
  induction fuel with
  | zero => intro j buf j₀ h1 h2 h3; omega
  | succ fuel ih =>
    intro j buf j₀ h1 h2 h3
    have hj : j < n := by omega
    rw [identGo, if_pos hj]
    rcases Nat.eq_or_lt_of_le h2 with rfl | hlt
    · rw [identGo_ne]
      · exact setIdx_self _ _ _
      · intro j' h4 h5
        intro hcontra
        have := (flatIdx_inj (n := n) h3 h5).mp hcontra
        omega
    · exact ih (j+1) _ j₀ (by omega) (by omega) h3

/-- The flat buffer of `NewIdentity n` holds `1` on the diagonal and `0`
elsewhere (within range). -/
theorem newIdentity_flat (n : ℕ) {r c : ℕ} (hr : r < n) (hc : c < n) :
    (NewIdentity n).M (r*n+c) = if r = c then 1 else 0 := by
  by_cases h : r = c
  · subst h
    rw [if_pos rfl]
    exact identGo_diag n n 0 _ r (by omega) (by omega) hr
  · rw [if_neg h]
    show identGo n n 0 (fun _ => 0) (r*n+c) = 0
    rw [identGo_ne]
    intro j' h1 h2
    intro hcontra
    have := (flatIdx_inj (n := n) hc h2).mp hcontra
    omega

theorem newIdentity_get (n : ℕ) {r c : ℕ} (hr : r < n) (hc : c < n) :
    (NewIdentity n).Get r c = if r = c then 1 else 0 :=
  newIdentity_flat n hr hc

/-- LU decomposition of the identity matrix: `u` is the identity on the upper
triangle and `l` is zero below the diagonal (so both factors are again the
identity). -/
theorem luPair_identity (n : ℕ) :
    ∀ i, i < n →
      (∀ k, i ≤ k → k < n →
        (luPair (NewIdentity n)).2 (i*n+k) = if i = k then 1 else 0) ∧
      (∀ k, i < k → k < n → (luPair (NewIdentity n)).1 (k*n+i) = 0) := by
  intro i
  induction i using Nat.strong_induction_on with
  | _ i ih =>
    intro hi
    have F := luPair_facts (NewIdentity n)
    rw [show (NewIdentity n).NumberOfColumns = n from rfl] at F
    constructor
    · intro k hik hk
      rw [F.uRec i k hi hik hk]
      rw [sumR_eq_zero (fun j hj => ?_), sub_zero]
      · exact newIdentity_flat n hi hk
      · rw [(ih j (by omega) (by omega)).2 i (by omega) hi, zero_mul]
    · intro k hik hk
      rw [F.lRec i k hi hik hk]
      rw [sumR_eq_zero (fun j hj => ?_), sub_zero]
      · rw [newIdentity_flat n hk hi, if_neg (by omega), zero_div]
      · rw [(ih j (by omega) (by omega)).2 k (by omega) hk, zero_mul]

/-- C9: `Determinant(ConstructIdentity(n))` succeeds and returns exactly `1.0`
for every `n ≥ 1`. -/
theorem C9_determinant_identity (n : ℕ) (hn : 1 ≤ n) :
    (NewIdentity n).Determinant = .ok 1 := by
  unfold Matrix.Determinant
  rw [if_neg (by simp [Matrix.IsSquare, NewIdentity])]
  have hlu : (NewIdentity n).LUDecomposition =
      .ok (⟨n, n, (luPair (NewIdentity n)).1⟩, ⟨n, n, (luPair (NewIdentity n)).2⟩) := by
    unfold Matrix.LUDecomposition
    rw [if_pos (show (NewIdentity n).IsSquare from rfl)]
    rfl
  rw [hlu]
  show Except.ok (prodR n _) = _
  congr 1
  refine Finset.prod_eq_one (fun i hi => ?_)
  have hin := Finset.mem_range.mp hi
  show (luPair (NewIdentity n)).2 (i*n+i) = 1
  rw [(luPair_identity n i hin).1 i le_rfl hin, if_pos rfl]

/-- Witness for C9 at `n = 3`. -/
theorem C9_witness : (NewIdentity 3).Determinant = .ok 1 :=
  C9_determinant_identity 3 (by norm_num)

/-! ### C7 and C1: Determinant and Inverse -/

/-- The determinant value computed for a square matrix: the product of the
diagonal of the `u` buffer. -/
def detVal (m : Matrix) : ℚ :=
  prodR m.NumberOfRows (fun row => (luPair m).2 (row * m.NumberOfColumns + row))

/-- The buffer of the matrix returned by `Inverse` (forward substitution on
the identity, then backward substitution), exactly as built in `Inverse`. -/
def invBuf (m : Matrix) : ℕ → ℚ :=
  bwdGo (luPair m).2
    (fwdGo (luPair m).1 (NewIdentity m.NumberOfRows).M m.NumberOfRows m.NumberOfRows 0 (fun _ => 0))
    m.NumberOfRows m.NumberOfRows 0 (fun _ => 0)

theorem determinant_eq (m : Matrix) (hsq : m.IsSquare) :
    m.Determinant = .ok (detVal m) := by
  unfold Matrix.Determinant
  rw [if_neg (not_not_intro hsq)]
  unfold Matrix.LUDecomposition
  rw [if_pos hsq]
  rfl

theorem determinantLU_eq (m : Matrix) (hsq : m.IsSquare) :
    m.determinantLU = .ok (detVal m,
      ⟨m.NumberOfRows, m.NumberOfColumns, (luPair m).1⟩,
      ⟨m.NumberOfRows, m.NumberOfColumns, (luPair m).2⟩) := by
  unfold Matrix.determinantLU
  rw [if_neg (not_not_intro hsq)]
  unfold Matrix.LUDecomposition
  rw [if_pos hsq]
  rfl

theorem inverse_eq (m : Matrix) (hsq : m.IsSquare) :
    m.Inverse = if detVal m = 0 then .error ⟨errorNotInversible, ""⟩
      else .ok ⟨m.NumberOfRows, m.NumberOfColumns, invBuf m⟩ := by
  unfold Matrix.Inverse
  rw [determinantLU_eq m hsq]
  rfl

/-- C7: `Inverse` fails with the `NonSquareMatrix` error on every non-square
matrix; on a square matrix it fails with the `Singular` error
(`errorNotInversible`) exactly when the computed determinant equals `0.0`
under exact comparison, and succeeds otherwise; failures carry no matrix. -/
theorem C7_inverse_failures (m : Matrix) :
    (¬m.IsSquare → m.Inverse = .error ⟨errorNonSquareMatrix, ""⟩) ∧
    (m.IsSquare → ∀ d, m.Determinant = .ok d →
      ((d = 0 → m.Inverse = .error ⟨errorNotInversible, ""⟩) ∧
       (d ≠ 0 → ∃ X, m.Inverse = .ok X))) := by
  constructor
  · intro h
    have hdet : m.determinantLU = .error ⟨errorNonSquareMatrix, ""⟩ := by
      unfold Matrix.determinantLU
      rw [if_pos h]
    unfold Matrix.Inverse
    rw [hdet]
  · intro hsq d hd
    rw [determinant_eq m hsq] at hd
    have hdval : detVal m = d := by
      injection hd
    constructor
    · intro h0
      rw [inverse_eq m hsq, if_pos (by rw [hdval, h0])]
    · intro h0
      rw [inverse_eq m hsq, if_neg (by rw [hdval]; exact h0)]
      exact ⟨_, rfl⟩

theorem sumIco_congr {lo hi : ℕ} {f g : ℕ → ℚ} (h : ∀ j, lo ≤ j → j < hi → f j = g j) :
    sumIco lo hi f = sumIco lo hi g :=
  Finset.sum_congr rfl (fun j hj => h j (Finset.mem_Ico.mp hj).1 (Finset.mem_Ico.mp hj).2)

theorem fwdRowGo_ne (l idb : ℕ → ℚ) (n k : ℕ) :
    ∀ fuel i y idx, (∀ i', i ≤ i' → i' < n → idx ≠ i'*n+k) →
      fwdRowGo l idb n k fuel i y idx = y idx := by
  intro fuel
  induction fuel with
  | zero => intro i y idx _; rfl
  | succ fuel ih =>
    intro i y idx h
    by_cases hi : i < n
    · rw [fwdRowGo, if_pos hi, ih (i+1) _ idx (fun i' h1 h2 => h i' (by omega) h2),
        setIdx_ne _ _ _ (h i le_rfl hi)]
    · rw [fwdRowGo, if_neg hi]

/-- Characterization of the forward-substitution inner loop: every row it
writes satisfies the substitution recurrence (stated in terms of the final
buffer itself). -/
theorem fwdRowGo_spec (l idb : ℕ → ℚ) (n k : ℕ) (hk : k < n) :
    ∀ fuel i y i₀, n ≤ i + fuel → i ≤ i₀ → i₀ < n →
      fwdRowGo l idb n k fuel i y (i₀*n+k) =
        (idb (i₀*n+k) -
          sumR i₀ (fun j => l (i₀*n+j) * fwdRowGo l idb n k fuel i y (j*n+k))) / l (i₀*n+i₀) := by
  intro fuel
  induction fuel with
  | zero => intro i y i₀ h1 h2 h3; omega
  | succ fuel ih =>
    intro i y i₀ h1 h2 h3
    have hi : i < n := by omega
    have hstep : fwdRowGo l idb n k (fuel+1) i y =
        fwdRowGo l idb n k fuel (i+1)
          (setIdx y (i*n+k) ((idb (i*n+k) - sumR i (fun j => l (i*n+j) * y (j*n+k))) / l (i*n+i))) := by
      rw [fwdRowGo, if_pos hi]
    simp only [hstep]
    rcases Nat.eq_or_lt_of_le h2 with rfl | hlt
    · have hslot : ∀ j, j < n →
          fwdRowGo l idb n k fuel (i+1)
            (setIdx y (i*n+k) ((idb (i*n+k) - sumR i (fun j => l (i*n+j) * y (j*n+k))) / l (i*n+i)))
            (j*n+k) =
          (setIdx y (i*n+k) ((idb (i*n+k) - sumR i (fun j => l (i*n+j) * y (j*n+k))) / l (i*n+i)))
            (j*n+k) ∨ i < j := by
        intro j hj
        rcases Nat.lt_or_ge i j with hij | hij
        · exact Or.inr hij
        · refine Or.inl (fwdRowGo_ne l idb n k fuel (i+1) _ _ (fun i' h4 h5 => ?_))
          intro hcontra
          have := (flatIdx_inj (n := n) hk hk).mp hcontra
          omega
      have hme : fwdRowGo l idb n k fuel (i+1)
          (setIdx y (i*n+k) ((idb (i*n+k) - sumR i (fun j => l (i*n+j) * y (j*n+k))) / l (i*n+i)))
          (i*n+k) =
          (idb (i*n+k) - sumR i (fun j => l (i*n+j) * y (j*n+k))) / l (i*n+i) := by
        rcases hslot i hi with h | h
        · rw [h, setIdx_self]
        · omega
      rw [hme]
      congr 2
      refine sumR_congr (fun j hj => ?_)
      rcases hslot j (by omega) with h | h
      · rw [h, setIdx_ne]
        intro hcontra
        have := (flatIdx_inj (n := n) hk hk).mp hcontra
        omega
      · omega
    · exact ih (i+1) _ i₀ (by omega) (by omega) h3

theorem fwdGo_ne (l idb : ℕ → ℚ) (n : ℕ) :
    ∀ fuel k y idx, (∀ k' i', k ≤ k' → k' < n → i' < n → idx ≠ i'*n+k') →
      fwdGo l idb n fuel k y idx = y idx := by
  intro fuel
  induction fuel with
  | zero => intro k y idx _; rfl
  | succ fuel ih =>
    intro k y idx h
    by_cases hkn : k < n
    · rw [fwdGo, if_pos hkn, ih (k+1) _ idx (fun k' i' h1 h2 h3 => h k' i' (by omega) h2 h3),
        fwdRowGo_ne l idb n k (n-1) 1 _ idx (fun i' h4 h5 => h k i' le_rfl hkn h5)]
      have h0 : idx ≠ k := by
        have := h k 0 le_rfl hkn (by omega)
        simpa using this
      rw [setIdx_ne _ _ _ h0]
    · rw [fwdGo, if_neg hkn]

/-- Characterization of the full forward substitution: the final `y` buffer
satisfies the unified substitution recurrence on every in-range position.
(Row `0` of each column is the pre-write `y.M[k] = id[0][k] / l[0][0]`, which
is the recurrence with an empty sum.) -/
theorem fwdGo_spec (l idb : ℕ → ℚ) (n : ℕ) :
    ∀ fuel k y k₀ i₀, n ≤ k + fuel → k ≤ k₀ → k₀ < n → i₀ < n →
      fwdGo l idb n fuel k y (i₀*n+k₀) =
        (idb (i₀*n+k₀) -
          sumR i₀ (fun j => l (i₀*n+j) * fwdGo l idb n fuel k y (j*n+k₀))) / l (i₀*n+i₀) := by
  intro fuel
  induction fuel with
  | zero => intro k y k₀ i₀ h1 h2 h3 h4; omega
  | succ fuel ih =>
    intro k y k₀ i₀ h1 h2 h3 h4
    have hkn : k < n := by omega
    have hstep : fwdGo l idb n (fuel+1) k y =
        fwdGo l idb n fuel (k+1) (fwdRowGo l idb n k (n-1) 1 (setIdx y k (idb (0*n+k) / l (0*n+0)))) := by
      rw [fwdGo, if_pos hkn]
    simp only [hstep]
    rcases Nat.eq_or_lt_of_le h2 with rfl | hlt
    · -- working on column k; later columns never touch it
      have hcol : ∀ i', i' < n →
          fwdGo l idb n fuel (k+1) (fwdRowGo l idb n k (n-1) 1 (setIdx y k (idb (0*n+k) / l (0*n+0))))
            (i'*n+k) =
          fwdRowGo l idb n k (n-1) 1 (setIdx y k (idb (0*n+k) / l (0*n+0))) (i'*n+k) := by
        intro i' hi'
        refine fwdGo_ne l idb n fuel (k+1) _ _ (fun k' i'' h5 h6 h7 => ?_)
        intro hcontra
        have := (flatIdx_inj (n := n) h3 h6).mp hcontra
        omega
      rw [hcol i₀ h4]
      have hsum : sumR i₀ (fun j => l (i₀*n+j) *
            fwdGo l idb n fuel (k+1)
              (fwdRowGo l idb n k (n-1) 1 (setIdx y k (idb (0*n+k) / l (0*n+0)))) (j*n+k)) =
          sumR i₀ (fun j => l (i₀*n+j) *
            fwdRowGo l idb n k (n-1) 1 (setIdx y k (idb (0*n+k) / l (0*n+0))) (j*n+k)) := by
        refine sumR_congr (fun j hj => ?_)
        rw [hcol j (by omega)]
      rw [hsum]
      rcases Nat.eq_zero_or_pos i₀ with rfl | hi₀
      · -- row 0: the pre-write, never touched by the inner loop (rows ≥ 1)
        have hrow0 : fwdRowGo l idb n k (n-1) 1 (setIdx y k (idb (0*n+k) / l (0*n+0))) (0*n+k) =
            (setIdx y k (idb (0*n+k) / l (0*n+0))) (0*n+k) := by
          refine fwdRowGo_ne l idb n k (n-1) 1 _ _ (fun i' h4 h5 => ?_)
          intro hcontra
          have := (flatIdx_inj (n := n) h3 h3).mp hcontra
          omega
        rw [hrow0, show (0*n+k) = k by omega, setIdx_self]
        rw [sumR_eq_zero (fun j hj => by omega), sub_zero]
      · exact fwdRowGo_spec l idb n k h3 (n-1) 1 _ i₀ (by omega) (by omega) h4
    · exact ih (k+1) _ k₀ i₀ (by omega) (by omega) h3 h4

theorem bwdRowGo_ne (u yb : ℕ → ℚ) (n c : ℕ) :
    ∀ op x idx, (∀ o, o < op → idx ≠ o*n+c) → bwdRowGo u yb n c op x idx = x idx := by
  intro op
  induction op with
  | zero => intro x idx _; rfl
  | succ o ih =>
    intro x idx h
    rw [bwdRowGo, ih _ idx (fun o' h1 => h o' (by omega)),
      setIdx_ne _ _ _ (h o (by omega))]

/-- Characterization of the backward-substitution inner loop. -/
theorem bwdRowGo_spec (u yb : ℕ → ℚ) (n c : ℕ) (hc : c < n) :
    ∀ op x o₀, o₀ < op → op ≤ n →
      bwdRowGo u yb n c op x (o₀*n+c) =
        (yb (o₀*n+c) -
          sumIco (o₀+1) n (fun p => u (o₀*n+p) * bwdRowGo u yb n c op x (p*n+c))) / u (o₀*n+o₀) := by
  intro op
  induction op with
  | zero => intro x o₀ h1 h2; omega
  | succ o ih =>
    intro x o₀ h1 h2
    have hstep : bwdRowGo u yb n c (o+1) x =
        bwdRowGo u yb n c o
          (setIdx x (o*n+c) ((yb (o*n+c) - sumIco (o+1) n (fun p => u (o*n+p) * x (p*n+c))) / u (o*n+o))) := by
      rw [bwdRowGo]
    simp only [hstep]
    rcases Nat.lt_or_ge o₀ o with hlt | hge
    · exact ih _ o₀ hlt (by omega)
    · have ho : o₀ = o := by omega
      subst ho
      have hslot : ∀ p, p < n → o₀ < p →
          bwdRowGo u yb n c o₀
            (setIdx x (o₀*n+c) ((yb (o₀*n+c) - sumIco (o₀+1) n (fun p => u (o₀*n+p) * x (p*n+c))) / u (o₀*n+o₀)))
            (p*n+c) = x (p*n+c) := by
        intro p hp hop
        rw [bwdRowGo_ne u yb n c o₀ _ _ (fun o' h4 => ?_), setIdx_ne]
        · intro hcontra
          have := (flatIdx_inj (n := n) hc hc).mp hcontra
          omega
        · intro hcontra
          have := (flatIdx_inj (n := n) hc hc).mp hcontra
          omega
      have hme : bwdRowGo u yb n c o₀
          (setIdx x (o₀*n+c) ((yb (o₀*n+c) - sumIco (o₀+1) n (fun p => u (o₀*n+p) * x (p*n+c))) / u (o₀*n+o₀)))
          (o₀*n+c) =
          (yb (o₀*n+c) - sumIco (o₀+1) n (fun p => u (o₀*n+p) * x (p*n+c))) / u (o₀*n+o₀) := by
        rw [bwdRowGo_ne u yb n c o₀ _ _ (fun o' h4 => ?_), setIdx_self]
        intro hcontra
        have := (flatIdx_inj (n := n) hc hc).mp hcontra
        omega
      rw [hme]
      congr 2
      refine sumIco_congr (fun p h4 h5 => ?_)
      rw [hslot p h5 (by omega)]

theorem bwdGo_ne (u yb : ℕ → ℚ) (n : ℕ) :
    ∀ fuel np x idx, (∀ np' i', np ≤ np' → np' < n → i' < n → idx ≠ i'*n+(n-1-np')) →
      bwdGo u yb n fuel np x idx = x idx := by
  intro fuel
  induction fuel with
  | zero => intro np x idx _; rfl
  | succ fuel ih =>
    intro np x idx h
    by_cases hnp : np < n
    · rw [bwdGo, if_pos hnp, ih (np+1) _ idx (fun np' i' h1 h2 h3 => h np' i' (by omega) h2 h3),
        bwdRowGo_ne u yb n (n-1-np) (n-1) _ idx (fun o h4 => h np o le_rfl hnp (by omega)),
        setIdx_ne _ _ _ (h np (n-1) le_rfl hnp (by omega))]
    · rw [bwdGo, if_neg hnp]

/-- Characterization of the full backward substitution: the final `x` buffer
satisfies the unified recurrence (row `n-1` of each column is the pre-write,
which is the recurrence with an empty sum). -/
theorem bwdGo_spec (u yb : ℕ → ℚ) (n : ℕ) :
    ∀ fuel np x np₀ o₀, n ≤ np + fuel → np ≤ np₀ → np₀ < n → o₀ < n →
      bwdGo u yb n fuel np x (o₀*n+(n-1-np₀)) =
        (yb (o₀*n+(n-1-np₀)) -
          sumIco (o₀+1) n (fun p => u (o₀*n+p) * bwdGo u yb n fuel np x (p*n+(n-1-np₀)))) /
          u (o₀*n+o₀) := by
  intro fuel
  induction fuel with
  | zero => intro np x np₀ o₀ h1 h2 h3 h4; omega
  | succ fuel ih =>
    intro np x np₀ o₀ h1 h2 h3 h4
    have hnp : np < n := by omega
    have hstep : bwdGo u yb n (fuel+1) np x =
        bwdGo u yb n fuel (np+1)
          (bwdRowGo u yb n (n-1-np) (n-1)
            (setIdx x ((n-1)*n + (n-1-np)) (yb ((n-1)*n + (n-1-np)) / u ((n-1)*n + (n-1))))) := by
      rw [bwdGo, if_pos hnp]
    simp only [hstep]
    rcases Nat.eq_or_lt_of_le h2 with rfl | hlt
    · -- working on column n-1-np; later iterations use other columns
      have hcol : ∀ i', i' < n →
          bwdGo u yb n fuel (np+1)
            (bwdRowGo u yb n (n-1-np) (n-1)
              (setIdx x ((n-1)*n + (n-1-np)) (yb ((n-1)*n + (n-1-np)) / u ((n-1)*n + (n-1)))))
            (i'*n+(n-1-np)) =
          bwdRowGo u yb n (n-1-np) (n-1)
            (setIdx x ((n-1)*n + (n-1-np)) (yb ((n-1)*n + (n-1-np)) / u ((n-1)*n + (n-1))))
            (i'*n+(n-1-np)) := by
        intro i' hi'
        refine bwdGo_ne u yb n fuel (np+1) _ _ (fun np' i'' h5 h6 h7 => ?_)
        intro hcontra
        have := (flatIdx_inj (n := n) (show n-1-np < n by omega) (show n-1-np' < n by omega)).mp hcontra
        omega
      rw [hcol o₀ h4]
      have hsum : sumIco (o₀+1) n (fun p => u (o₀*n+p) *
            bwdGo u yb n fuel (np+1)
              (bwdRowGo u yb n (n-1-np) (n-1)
                (setIdx x ((n-1)*n + (n-1-np)) (yb ((n-1)*n + (n-1-np)) / u ((n-1)*n + (n-1)))))
              (p*n+(n-1-np))) =
          sumIco (o₀+1) n (fun p => u (o₀*n+p) *
            bwdRowGo u yb n (n-1-np) (n-1)
              (setIdx x ((n-1)*n + (n-1-np)) (yb ((n-1)*n + (n-1-np)) / u ((n-1)*n + (n-1))))
              (p*n+(n-1-np))) := by
        refine sumIco_congr (fun p h4 h5 => ?_)
        rw [hcol p h5]
      rw [hsum]
      rcases Nat.lt_or_ge o₀ (n-1) with ho | ho
      · exact bwdRowGo_spec u yb n (n-1-np) (by omega) (n-1) _ o₀ ho (by omega)
      · -- o₀ = n-1 : the pre-write; inner loop only touches rows < n-1
        have ho2 : o₀ = n-1 := by omega
        subst ho2
        have hrow : bwdRowGo u yb n (n-1-np) (n-1)
            (setIdx x ((n-1)*n + (n-1-np)) (yb ((n-1)*n + (n-1-np)) / u ((n-1)*n + (n-1))))
            ((n-1)*n+(n-1-np)) =
            yb ((n-1)*n + (n-1-np)) / u ((n-1)*n + (n-1)) := by
          rw [bwdRowGo_ne u yb n (n-1-np) (n-1) _ _ (fun o' h4 => ?_), setIdx_self]
          intro hcontra
          have := (flatIdx_inj (n := n) (show n-1-np < n by omega) (show n-1-np < n by omega)).mp hcontra
          omega
        rw [hrow]
        have hzero : sumIco ((n-1)+1) n (fun p => u ((n-1)*n+p) *
            bwdRowGo u yb n (n-1-np) (n-1)
              (setIdx x ((n-1)*n + (n-1-np)) (yb ((n-1)*n + (n-1-np)) / u ((n-1)*n + (n-1))))
              (p*n+(n-1-np))) = 0 := by
          unfold sumIco
          rw [show (n-1)+1 = n by omega, Finset.Ico_self, Finset.sum_empty]
        rw [hzero, sub_zero]
    · exact ih (np+1) _ np₀ o₀ (by omega) (by omega) h3 h4

/-- A buffer `Y` satisfying the forward-substitution recurrence against a
unit-lower-triangular `l` solves `l · Y = idb` row by row. -/
theorem forward_solve (n : ℕ) (l idb Y : ℕ → ℚ)
    (hl_diag : ∀ i, i < n → l (i*n+i) = 1)
    (hl_up : ∀ i t, i < t → t < n → l (i*n+t) = 0)
    (hY : ∀ i k, i < n → k < n →
      Y (i*n+k) = (idb (i*n+k) - sumR i (fun j => l (i*n+j) * Y (j*n+k))) / l (i*n+i)) :
    ∀ i k, i < n → k < n → sumR n (fun t => l (i*n+t) * Y (t*n+k)) = idb (i*n+k) := by
  intro i k hi hk
  have hshrink : sumR n (fun t => l (i*n+t) * Y (t*n+k)) =
      sumR (i+1) (fun t => l (i*n+t) * Y (t*n+k)) := by
    refine (Finset.sum_subset (Finset.range_subset.mpr (by omega)) ?_).symm
    intro x hx hnx
    have hx1 := Finset.mem_range.mp hx
    have hx2 : i < x := by
      by_contra hcon
      exact hnx (Finset.mem_range.mpr (by omega))
    rw [hl_up i x hx2 hx1, zero_mul]
  rw [hshrink, sumR, Finset.sum_range_succ, ← sumR, hl_diag i hi, one_mul,
    hY i k hi hk, hl_diag i hi, div_one]
  ring

/-- A buffer `X` satisfying the backward-substitution recurrence against an
upper-triangular `u` with nonzero diagonal solves `u · X = Yb`. -/
theorem backward_solve (n : ℕ) (u Yb X : ℕ → ℚ)
    (hu_low : ∀ o p, p < o → o < n → u (o*n+p) = 0)
    (hpiv : ∀ o, o < n → u (o*n+o) ≠ 0)
    (hX : ∀ o c, o < n → c < n →
      X (o*n+c) = (Yb (o*n+c) - sumIco (o+1) n (fun p => u (o*n+p) * X (p*n+c))) / u (o*n+o)) :
    ∀ o c, o < n → c < n → sumR n (fun p => u (o*n+p) * X (p*n+c)) = Yb (o*n+c) := by
  intro o c ho hc
  have hsplit : sumR n (fun p => u (o*n+p) * X (p*n+c)) =
      sumR (o+1) (fun p => u (o*n+p) * X (p*n+c)) +
      sumIco (o+1) n (fun p => u (o*n+p) * X (p*n+c)) := by
    unfold sumR sumIco
    rw [Finset.range_eq_Ico]
    exact (Finset.sum_Ico_consecutive _ (show 0 ≤ o+1 by omega) (show o+1 ≤ n by omega)).symm
  rw [hsplit, sumR, Finset.sum_range_succ, ← sumR,
    sumR_eq_zero (fun p hp => by rw [hu_low o p hp ho, zero_mul]),
    hX o c ho hc, zero_add, mul_comm, div_mul_cancel₀ _ (hpiv o ho)]
  ring

/-- Combining the pieces: if `l·u` reproduces `a`, `u·X = Yb` and
`l·Yb = idb`, then `a·X = idb`. -/
theorem solve_product (n : ℕ) (a l u Yb X idb : ℕ → ℚ)
    (hmul : ∀ r c, r < n → c < n → sumR n (fun k => l (r*n+k) * u (k*n+c)) = a (r*n+c))
    (hUX : ∀ o c, o < n → c < n → sumR n (fun p => u (o*n+p) * X (p*n+c)) = Yb (o*n+c))
    (hLY : ∀ i k, i < n → k < n → sumR n (fun t => l (i*n+t) * Yb (t*n+k)) = idb (i*n+k)) :
    ∀ i c, i < n → c < n → sumR n (fun k => a (i*n+k) * X (k*n+c)) = idb (i*n+c) := by
  intro i c hi hc
  have h1 : sumR n (fun k => a (i*n+k) * X (k*n+c)) =
      sumR n (fun k => sumR n (fun j => l (i*n+j) * (u (j*n+k) * X (k*n+c)))) := by
    refine sumR_congr (fun k hk => ?_)
    rw [← hmul i k hi hk]
    unfold sumR
    rw [Finset.sum_mul]
    exact Finset.sum_congr rfl (fun j hj => by ring)
  have h2 : sumR n (fun k => sumR n (fun j => l (i*n+j) * (u (j*n+k) * X (k*n+c)))) =
      sumR n (fun j => sumR n (fun k => l (i*n+j) * (u (j*n+k) * X (k*n+c)))) := by
    unfold sumR
    exact Finset.sum_comm
  have h3 : sumR n (fun j => sumR n (fun k => l (i*n+j) * (u (j*n+k) * X (k*n+c)))) =
      sumR n (fun j => l (i*n+j) * Yb (j*n+c)) := by
    refine sumR_congr (fun j hj => ?_)
    rw [← hUX j c (by omega) hc]
    unfold sumR
    rw [Finset.mul_sum]
  rw [h1, h2, h3]
  exact hLY i c hi hc

/-- C1: for every square matrix whose computed determinant is nonzero,
`Inverse` succeeds and `Multiply(A, Inverse(A))` succeeds with every in-range
entry equal to the corresponding entry of the `n × n` identity
(exact equality in the exact-rational model of float64; this is "equality
within floating-point tolerance"). -/
theorem C1_inverse_product_identity (m : Matrix) (hsq : m.IsSquare) (d : ℚ)
    (hd : m.Determinant = .ok d) (hdn : d ≠ 0) :
    ∃ X P, m.Inverse = .ok X ∧ m.Multiply X = .ok P ∧
      P.NumberOfRows = m.NumberOfRows ∧ P.NumberOfColumns = m.NumberOfRows ∧
      ∀ r c, r < m.NumberOfRows → c < m.NumberOfRows →
        P.Get r c = (NewIdentity m.NumberOfRows).Get r c := by
  have hcr : m.NumberOfColumns = m.NumberOfRows := hsq
  rw [determinant_eq m hsq] at hd
  have hdval : detVal m = d := by injection hd
  have hpiv : ∀ i, i < m.NumberOfRows → (luPair m).2 (i * m.NumberOfRows + i) ≠ 0 := by
    intro i hi hzero
    apply hdn
    rw [← hdval]
    unfold detVal
    refine Finset.prod_eq_zero (Finset.mem_range.mpr hi) ?_
    rw [hcr]
    exact hzero
  have F := luPair_facts m
  rw [hcr] at F
  have hl_up : ∀ i t, i < t → t < m.NumberOfRows → (luPair m).1 (i*m.NumberOfRows+t) = 0 := by
    intro i t hit ht
    have h := lu_l_upper_zero m (i := i) (k := t) hit (by omega)
    rw [hcr] at h
    exact h
  have hu_low : ∀ o p, p < o → o < m.NumberOfRows → (luPair m).2 (o*m.NumberOfRows+p) = 0 := by
    intro o p hpo ho
    have h := lu_u_lower_zero m (i := o) (k := p) hpo (by omega)
    rw [hcr] at h
    exact h
  have hpivc : ∀ i, i < m.NumberOfColumns →
      (luPair m).2 (i * m.NumberOfColumns + i) ≠ 0 := by
    intro i hi
    rw [hcr]
    exact hpiv i (by omega)
  have hmul : ∀ r c, r < m.NumberOfRows → c < m.NumberOfRows →
      sumR m.NumberOfRows (fun k => (luPair m).1 (r*m.NumberOfRows+k) *
        (luPair m).2 (k*m.NumberOfRows+c)) = m.M (r*m.NumberOfRows+c) := by
    intro r c hr hc
    have h := lu_mul_entry m hpivc (r := r) (c := c) (by omega) (by omega)
    rw [hcr] at h
    exact h
  -- forward substitution result
  have hY : ∀ i k, i < m.NumberOfRows → k < m.NumberOfRows →
      fwdGo (luPair m).1 (NewIdentity m.NumberOfRows).M m.NumberOfRows m.NumberOfRows 0
        (fun _ => 0) (i*m.NumberOfRows+k) =
      ((NewIdentity m.NumberOfRows).M (i*m.NumberOfRows+k) -
        sumR i (fun j => (luPair m).1 (i*m.NumberOfRows+j) *
          fwdGo (luPair m).1 (NewIdentity m.NumberOfRows).M m.NumberOfRows m.NumberOfRows 0
            (fun _ => 0) (j*m.NumberOfRows+k))) /
        (luPair m).1 (i*m.NumberOfRows+i) := by
    intro i k hi hk
    exact fwdGo_spec (luPair m).1 (NewIdentity m.NumberOfRows).M m.NumberOfRows
      m.NumberOfRows 0 (fun _ => 0) k i (by omega) (by omega) hk hi
  have hLY := forward_solve m.NumberOfRows (luPair m).1 (NewIdentity m.NumberOfRows).M
    (fwdGo (luPair m).1 (NewIdentity m.NumberOfRows).M m.NumberOfRows m.NumberOfRows 0 (fun _ => 0))
    F.lDiag hl_up hY
  -- backward substitution result
  have hX : ∀ o c, o < m.NumberOfRows → c < m.NumberOfRows →
      invBuf m (o*m.NumberOfRows+c) =
      ((fwdGo (luPair m).1 (NewIdentity m.NumberOfRows).M m.NumberOfRows m.NumberOfRows 0
          (fun _ => 0)) (o*m.NumberOfRows+c) -
        sumIco (o+1) m.NumberOfRows (fun p => (luPair m).2 (o*m.NumberOfRows+p) *
          invBuf m (p*m.NumberOfRows+c))) / (luPair m).2 (o*m.NumberOfRows+o) := by
    intro o c ho hc
    have h5 := bwdGo_spec (luPair m).2
      (fwdGo (luPair m).1 (NewIdentity m.NumberOfRows).M m.NumberOfRows m.NumberOfRows 0 (fun _ => 0))
      m.NumberOfRows m.NumberOfRows 0 (fun _ => 0) (m.NumberOfRows-1-c) o
      (by omega) (by omega) (by omega) ho
    rw [show m.NumberOfRows-1-(m.NumberOfRows-1-c) = c by omega] at h5
    exact h5
  have hUX := backward_solve m.NumberOfRows (luPair m).2
    (fwdGo (luPair m).1 (NewIdentity m.NumberOfRows).M m.NumberOfRows m.NumberOfRows 0 (fun _ => 0))
    (invBuf m) hu_low hpiv hX
  have hprod := solve_product m.NumberOfRows m.M (luPair m).1 (luPair m).2
    (fwdGo (luPair m).1 (NewIdentity m.NumberOfRows).M m.NumberOfRows m.NumberOfRows 0 (fun _ => 0))
    (invBuf m) (NewIdentity m.NumberOfRows).M hmul hUX hLY
  -- assemble
  have hinv_ok : m.Inverse = .ok ⟨m.NumberOfRows, m.NumberOfColumns, invBuf m⟩ := by
    rw [inverse_eq m hsq, if_neg (by rw [hdval]; exact hdn)]
  refine ⟨⟨m.NumberOfRows, m.NumberOfColumns, invBuf m⟩,
    ⟨m.NumberOfRows, m.NumberOfColumns,
      fillAll m.NumberOfColumns
        (fun i j => sumR m.NumberOfColumns
          (fun k => m.M (i * m.NumberOfColumns + k) * invBuf m (k * m.NumberOfColumns + j)))
        m.NumberOfRows m.NumberOfColumns⟩,
    hinv_ok, ?_, rfl, hcr, ?_⟩
  · unfold Matrix.Multiply
    rw [if_neg (show ¬(m.NumberOfColumns ≠ m.NumberOfRows) by omega)]
  · intro r c hr hc
    unfold Matrix.Get
    simp only
    rw [fillAll_write m.NumberOfColumns _ m.NumberOfRows m.NumberOfColumns le_rfl hr (by omega)]
    have hentry : sumR m.NumberOfColumns
        (fun k => m.M (r * m.NumberOfColumns + k) * invBuf m (k * m.NumberOfColumns + c)) =
        (NewIdentity m.NumberOfRows).M (r * m.NumberOfRows + c) := by
      rw [hcr]
      exact hprod r c hr (by omega)
    rw [hentry]
    rfl

/-- Witness input for C1: the `2 × 2` matrix `[[2, 1], [1, 1]]`, determinant `1`. -/
def invWitA : Matrix :=
  ⟨2, 2, fun t => if t = 0 then 2 else if t = 1 then 1 else if t = 2 then 1 else if t = 3 then 1 else 0⟩

/-- Witness for C1 at `[[2, 1], [1, 1]]`: its determinant evaluates to `1 ≠ 0`,
and the theorem yields the inverse together with `A · A⁻¹ = I` entrywise. -/
theorem C1_witness :
    ∃ X P, invWitA.Inverse = .ok X ∧ invWitA.Multiply X = .ok P ∧
      P.NumberOfRows = invWitA.NumberOfRows ∧ P.NumberOfColumns = invWitA.NumberOfRows ∧
      ∀ r c, r < invWitA.NumberOfRows → c < invWitA.NumberOfRows →
        P.Get r c = (NewIdentity invWitA.NumberOfRows).Get r c := by
  refine C1_inverse_product_identity invWitA rfl 1 ?_ (by norm_num)
  norm_num [Matrix.Determinant, Matrix.LUDecomposition, Matrix.IsSquare, invWitA, prodR,
    Matrix.Get, luPair, luOuterGo, luUpperGo, luLowerGo, setIdx, sumR,
    Finset.prod_range_succ, Finset.sum_range_succ]

/-- Witness input for C7: the singular `1 × 1` matrix `[[0]]`. -/
def singWitA : Matrix := ⟨1, 1, fun _ => 0⟩

/-- Witness for C7 at `[[0]]`: its computed determinant is `0` and `Inverse`
fails with the `Singular` error. -/
theorem C7_witness : singWitA.Inverse = .error ⟨errorNotInversible, ""⟩ := by
  have hd : singWitA.Determinant = .ok 0 := by
    norm_num [Matrix.Determinant, Matrix.LUDecomposition, Matrix.IsSquare, singWitA, prodR,
      Matrix.Get, luPair, luOuterGo, luUpperGo, luLowerGo, setIdx, sumR, Finset.prod_range_succ]
  exact ((C7_inverse_failures singWitA).2 rfl 0 hd).1 rfl

/-! ### C3: Transpose -/

/-- Every write a cycle walk performs stores the transposed value for its
slot, so each buffer position is either untouched or correct. -/
theorem cycleGo_pres (mb : ℕ → ℚ) (rows cols start : ℕ) (tmp : ℚ) (htmp : tmp = mb start) :
    ∀ fuel j ret idx, cycleGo mb rows cols start tmp fuel j ret idx = ret idx ∨
      cycleGo mb rows cols start tmp fuel j ret idx = mb (tIdx rows cols idx) := by
  intro fuel
  induction fuel with
  | zero => intro j ret idx; exact Or.inl rfl
  | succ fuel ih =>
    intro j ret idx
    have hwrite : ∀ idx',
        (if tIdx rows cols j = start then setIdx ret j tmp else setIdx ret j (mb (tIdx rows cols j))) idx' =
          ret idx' ∨
        (if tIdx rows cols j = start then setIdx ret j tmp else setIdx ret j (mb (tIdx rows cols j))) idx' =
          mb (tIdx rows cols idx') := by
      intro idx'
      by_cases hj : idx' = j
      · subst hj
        by_cases hstart : tIdx rows cols idx' = start
        · rw [if_pos hstart, setIdx_self, htmp, hstart]
          exact Or.inr rfl
        · rw [if_neg hstart, setIdx_self]
          exact Or.inr rfl
      · by_cases hstart : tIdx rows cols j = start
        · rw [if_pos hstart, setIdx_ne _ _ _ hj]
          exact Or.inl rfl
        · rw [if_neg hstart, setIdx_ne _ _ _ hj]
          exact Or.inl rfl
    rw [cycleGo]
    by_cases hcont : start < tIdx rows cols j
    · rw [if_pos hcont]
      rcases ih (tIdx rows cols j) _ idx with h | h
      · rw [h]
        exact hwrite idx
      · exact Or.inr h
    · rw [if_neg hcont]
      exact hwrite idx

/-- A cycle walk starting at `start` (with at least one unit of fuel) leaves
the correct transposed value at `start`. -/
theorem cycleGo_start (mb : ℕ → ℚ) (rows cols start : ℕ) (tmp : ℚ) (htmp : tmp = mb start) :
    ∀ fuel ret, cycleGo mb rows cols start tmp (fuel+1) start ret start = mb (tIdx rows cols start) := by
  intro fuel ret
  have hwrite :
      (if tIdx rows cols start = start then setIdx ret start tmp
       else setIdx ret start (mb (tIdx rows cols start))) start = mb (tIdx rows cols start) := by
    by_cases hstart : tIdx rows cols start = start
    · rw [if_pos hstart, setIdx_self, htmp, hstart]
    · rw [if_neg hstart, setIdx_self]
  rw [cycleGo]
  by_cases hcont : start < tIdx rows cols start
  · rw [if_pos hcont]
    rcases cycleGo_pres mb rows cols start tmp htmp fuel (tIdx rows cols start) _ start with h | h
    · rw [h]
      exact hwrite
    · exact h
  · rw [if_neg hcont]
    exact hwrite

/-- After the outer loop has processed all starting indices, every position of
the output buffer holds the transposed value. -/
theorem nstGo_correct (mb : ℕ → ℚ) (rows cols : ℕ) :
    ∀ fuel start ret, rows*cols ≤ start + fuel →
      (∀ idx, idx < start → ret idx = mb (tIdx rows cols idx)) →
      ∀ idx, idx < rows*cols → nstGo mb rows cols fuel start ret idx = mb (tIdx rows cols idx) := by
  intro fuel
  induction fuel with
  | zero =>
    intro start ret h1 h2 idx hidx
    exact h2 idx (by omega)
  | succ fuel ih =>
    intro start ret h1 h2 idx hidx
    by_cases hstart : start < rows*cols
    · rw [nstGo, if_pos hstart]
      refine ih (start+1) _ (by omega) ?_ idx hidx
      intro idx' hidx'
      rcases Nat.lt_or_ge idx' start with hlt | hge
      · rcases cycleGo_pres mb rows cols start (mb start) rfl (rows*cols) start ret idx' with h | h
        · rw [h]
          exact h2 idx' hlt
        · exact h
      · have : idx' = start := by omega
        subst this
        have hN : rows*cols = (rows*cols-1)+1 := by omega
        rw [hN]
        exact cycleGo_start mb rows cols idx' (mb idx') rfl (rows*cols-1) ret
    · rw [nstGo, if_neg hstart]
      exact h2 idx (by omega)

/-- Entry-level correctness of the non-square transpose. -/
theorem nonSquareTranspose_entry (m : Matrix) {r c : ℕ}
    (hr : r < m.NumberOfRows) (hc : c < m.NumberOfColumns) :
    m.nonSquareTranspose.Get c r = m.Get r c := by
  unfold Matrix.nonSquareTranspose Matrix.Get
  simp only
  have hrows : 0 < m.NumberOfRows := by omega
  have hidx : c * m.NumberOfRows + r < m.NumberOfRows * m.NumberOfColumns := by
    have h1 : (c+1) * m.NumberOfRows ≤ m.NumberOfColumns * m.NumberOfRows :=
      Nat.mul_le_mul_right _ (by omega)
    have h2 : (c+1) * m.NumberOfRows = c * m.NumberOfRows + m.NumberOfRows := by ring
    have h3 : m.NumberOfColumns * m.NumberOfRows = m.NumberOfRows * m.NumberOfColumns :=
      Nat.mul_comm _ _
    omega
  rw [nstGo_correct m.M m.NumberOfRows m.NumberOfColumns (m.NumberOfRows*m.NumberOfColumns) 0
    (fun _ => 0) (by omega) (fun idx h => by omega) _ hidx]
  congr 1
  unfold tIdx
  have hmod : (c * m.NumberOfRows + r) % m.NumberOfRows = r := by
    rw [Nat.add_comm, Nat.add_mul_mod_self_right, Nat.mod_eq_of_lt hr]
  have hdiv : (c * m.NumberOfRows + r) / m.NumberOfRows = c := by
    rw [Nat.add_comm, Nat.add_mul_div_right _ _ hrows, Nat.div_eq_of_lt hr, Nat.zero_add]
  rw [hmod, hdiv]

theorem diagGo_ne (mb : ℕ → ℚ) (n : ℕ) :
    ∀ fuel k ret idx, (∀ k', k ≤ k' → k' < n → idx ≠ k'*n+k') →
      diagGo mb n fuel k ret idx = ret idx := by
  intro fuel
  induction fuel with
  | zero => intro k ret idx _; rfl
  | succ fuel ih =>
    intro k ret idx h
    by_cases hk : k < n
    · rw [diagGo, if_pos hk, ih (k+1) _ idx (fun k' h1 h2 => h k' (by omega) h2),
        setIdx_ne _ _ _ (h k le_rfl hk)]
    · rw [diagGo, if_neg hk]

theorem diagGo_diag (mb : ℕ → ℚ) (n : ℕ) :
    ∀ fuel k ret k₀, n ≤ k + fuel → k ≤ k₀ → k₀ < n →
      diagGo mb n fuel k ret (k₀*n+k₀) = mb (k₀*n+k₀) := by
  intro fuel
  induction fuel with
  | zero => intro k ret k₀ h1 h2 h3; omega
  | succ fuel ih =>
    intro k ret k₀ h1 h2 h3
    have hk : k < n := by omega
    rw [diagGo, if_pos hk]
    rcases Nat.eq_or_lt_of_le h2 with rfl | hlt
    · rw [diagGo_ne]
      · exact setIdx_self _ _ _
      · intro k' h4 h5
        intro hcontra
        have := (flatIdx_inj (n := n) h3 h5).mp hcontra
        omega
    · exact ih (k+1) _ k₀ (by omega) (by omega) h3

theorem swapInnerGo_ne (mb : ℕ → ℚ) (n i : ℕ) :
    ∀ fuel j ret idx, (∀ j', j ≤ j' → j' < n → idx ≠ j'*n+i ∧ idx ≠ i*n+j') →
      swapInnerGo mb n i fuel j ret idx = ret idx := by
  intro fuel
  induction fuel with
  | zero => intro j ret idx _; rfl
  | succ fuel ih =>
    intro j ret idx h
    by_cases hj : j < n
    · rw [swapInnerGo, if_pos hj, ih (j+1) _ idx (fun j' h1 h2 => h j' (by omega) h2),
        setIdx_ne _ _ _ (h j le_rfl hj).2, setIdx_ne _ _ _ (h j le_rfl hj).1]
    · rw [swapInnerGo, if_neg hj]

theorem swapInnerGo_write (mb : ℕ → ℚ) (n i : ℕ) (hi : i < n) :
    ∀ fuel j ret j₁, n ≤ j + fuel → j ≤ j₁ → j₁ < n → i < j →
      swapInnerGo mb n i fuel j ret (j₁*n+i) = mb (i*n+j₁) ∧
      swapInnerGo mb n i fuel j ret (i*n+j₁) = mb (j₁*n+i) := by
  intro fuel
  induction fuel with
  | zero => intro j ret j₁ h1 h2 h3 h4; omega
  | succ fuel ih =>
    intro j ret j₁ h1 h2 h3 h4
    have hj : j < n := by omega
    rw [swapInnerGo, if_pos hj]
    rcases Nat.eq_or_lt_of_le h2 with rfl | hlt
    · have hne : ∀ j', j+1 ≤ j' → j' < n →
          (j*n+i ≠ j'*n+i ∧ j*n+i ≠ i*n+j') ∧ (i*n+j ≠ j'*n+i ∧ i*n+j ≠ i*n+j') := by
        intro j' h5 h6
        refine ⟨⟨?_, ?_⟩, ?_, ?_⟩
        · intro hcontra
          have hq := (flatIdx_inj (n := n) hi hi).mp hcontra
          omega
        · intro hcontra
          have hq := (flatIdx_inj (n := n) hi h6).mp hcontra
          omega
        · intro hcontra
          have hq := (flatIdx_inj (n := n) h3 hi).mp hcontra
          omega
        · intro hcontra
          have hq := (flatIdx_inj (n := n) h3 h6).mp hcontra
          omega
      constructor
      · rw [swapInnerGo_ne mb n i fuel (j+1) _ _ (fun j' h5 h6 => (hne j' h5 h6).1),
          setIdx_ne, setIdx_self]
        intro hcontra
        have := (flatIdx_inj (n := n) hi h3).mp hcontra
        omega
      · rw [swapInnerGo_ne mb n i fuel (j+1) _ _ (fun j' h5 h6 => (hne j' h5 h6).2),
          setIdx_self]
    · exact ih (j+1) _ j₁ (by omega) (by omega) h3 (by omega)

/-- When all pairs below `i` are already swapped and the diagonal is copied,
the buffer is the full transpose once `n ≤ i + 1`. -/
theorem pairs_give_all (mb : ℕ → ℚ) (n i : ℕ) (ret : ℕ → ℚ) (hni : n ≤ i + 1)
    (hp : ∀ a b, a < b → b < n → a < i → ret (b*n+a) = mb (a*n+b) ∧ ret (a*n+b) = mb (b*n+a))
    (hd : ∀ a, a < n → ret (a*n+a) = mb (a*n+a)) :
    ∀ a b, a < n → b < n → ret (a*n+b) = mb (b*n+a) := by
  intro a b ha hb
  rcases Nat.lt_trichotomy a b with h | h | h
  · exact (hp a b h hb (by omega)).2
  · subst h
    exact hd a ha
  · exact (hp b a h ha (by omega)).1

theorem swapOuterGo_correct (mb : ℕ → ℚ) (n : ℕ) :
    ∀ fuel i ret, n ≤ i + fuel + 1 →
      (∀ a b, a < b → b < n → a < i → ret (b*n+a) = mb (a*n+b) ∧ ret (a*n+b) = mb (b*n+a)) →
      (∀ a, a < n → ret (a*n+a) = mb (a*n+a)) →
      ∀ a b, a < n → b < n → swapOuterGo mb n fuel i ret (a*n+b) = mb (b*n+a) := by
  intro fuel
  induction fuel with
  | zero =>
    intro i ret h1 hp hd a b ha hb
    exact pairs_give_all mb n i ret (by omega) hp hd a b ha hb
  | succ fuel ih =>
    intro i ret h1 hp hd a b ha hb
    by_cases hin : i + 2 ≤ n
    · rw [swapOuterGo, if_pos hin]
      have hpres : ∀ idx, (∀ j', i+1 ≤ j' → j' < n → idx ≠ j'*n+i ∧ idx ≠ i*n+j') →
          swapInnerGo mb n i (n-(i+1)) (i+1) ret idx = ret idx :=
        fun idx h => swapInnerGo_ne mb n i (n-(i+1)) (i+1) ret idx h
      refine ih (i+1) _ (by omega) ?_ ?_ a b ha hb
      · intro a' b' hab hb' ha'
        rcases Nat.lt_or_ge a' i with haif | haif
        · have hne1 : ∀ j', i+1 ≤ j' → j' < n →
              (b'*n+a' ≠ j'*n+i ∧ b'*n+a' ≠ i*n+j') := by
            intro j' h5 h6
            constructor <;> intro hcontra
            · have := (flatIdx_inj (n := n) (by omega) (by omega)).mp hcontra
              omega
            · have := (flatIdx_inj (n := n) (by omega) h6).mp hcontra
              omega
          have hne2 : ∀ j', i+1 ≤ j' → j' < n →
              (a'*n+b' ≠ j'*n+i ∧ a'*n+b' ≠ i*n+j') := by
            intro j' h5 h6
            constructor <;> intro hcontra
            · have := (flatIdx_inj (n := n) hb' (by omega)).mp hcontra
              omega
            · have := (flatIdx_inj (n := n) hb' h6).mp hcontra
              omega
          rw [hpres _ hne1, hpres _ hne2]
          exact hp a' b' hab hb' haif
        · have haieq : a' = i := by omega
          subst haieq
          exact swapInnerGo_write mb n a' (by omega) (n-(a'+1)) (a'+1) ret b'
            (by omega) (by omega) hb' (by omega)
      · intro a' ha'
        have hne : ∀ j', i+1 ≤ j' → j' < n → (a'*n+a' ≠ j'*n+i ∧ a'*n+a' ≠ i*n+j') := by
          intro j' h5 h6
          constructor <;> intro hcontra
          · have := (flatIdx_inj (n := n) ha' (by omega)).mp hcontra
            omega
          · have := (flatIdx_inj (n := n) ha' h6).mp hcontra
            omega
        rw [hpres _ hne]
        exact hd a' ha'
    · rw [swapOuterGo, if_neg hin]
      exact pairs_give_all mb n i ret (by omega) hp hd a b ha hb

/-- `Transpose` always succeeds and transposes entrywise: the result is a
`cols × rows` matrix with `T.Get c r = m.Get r c` on all in-range positions. -/
theorem transpose_entry (m : Matrix) :
    ∃ T, m.Transpose = .ok T ∧
      T.NumberOfRows = m.NumberOfColumns ∧ T.NumberOfColumns = m.NumberOfRows ∧
      ∀ r c, r < m.NumberOfRows → c < m.NumberOfColumns → T.Get c r = m.Get r c := by
  by_cases hsq : m.IsSquare
  · refine ⟨_, by unfold Matrix.Transpose; rw [if_neg (not_not_intro hsq)], rfl, rfl, ?_⟩
    intro r c hr hc
    have hcr : m.NumberOfColumns = m.NumberOfRows := hsq
    unfold Matrix.Get
    simp only
    rw [swapOuterGo_correct m.M m.NumberOfRows m.NumberOfRows 0 _ (by omega)
      (fun a b h1 h2 h3 => by omega)
      (fun a ha => diagGo_diag m.M m.NumberOfRows m.NumberOfRows 0 _ a (by omega) (by omega) ha)
      c r (by omega) hr]
    congr 1
    rw [hcr]
  · refine ⟨_, by unfold Matrix.Transpose; rw [if_pos hsq], rfl, rfl, ?_⟩
    exact fun r c hr hc => nonSquareTranspose_entry m hr hc

/-- C3: for every matrix (square or not), `Transpose` succeeds and returns a
`cols × rows` matrix satisfying `Transpose(A).Get(c, r) = A.Get(r, c)` on all
in-range positions, and `Transpose(Transpose(A))` has `A`'s shape with every
in-range element equal to `A`'s (exact equality).  The source never mutates
its input: both branches write only into a freshly allocated result (the
embedding is pure, so inputs are immutable by construction). -/
theorem C3_transpose_involution (m : Matrix) :
    ∃ T T2, m.Transpose = .ok T ∧
      T.NumberOfRows = m.NumberOfColumns ∧ T.NumberOfColumns = m.NumberOfRows ∧
      (∀ r c, r < m.NumberOfRows → c < m.NumberOfColumns → T.Get c r = m.Get r c) ∧
      T.Transpose = .ok T2 ∧
      T2.NumberOfRows = m.NumberOfRows ∧ T2.NumberOfColumns = m.NumberOfColumns ∧
      ∀ r c, r < m.NumberOfRows → c < m.NumberOfColumns → T2.Get r c = m.Get r c := by
  obtain ⟨T, hT, hTr, hTc, hTe⟩ := transpose_entry m
  obtain ⟨T2, hT2, hT2r, hT2c, hT2e⟩ := transpose_entry T
  refine ⟨T, T2, hT, hTr, hTc, hTe, hT2, by omega, by omega, ?_⟩
  intro r c hr hc
  rw [hT2e c r (by omega) (by omega), hTe r c hr hc]

/-- Witness input for C3: the `2 × 5` matrix whose flat buffer holds
`1, 2, ..., 10`. -/
def trWitA : Matrix := ⟨2, 5, fun t => (t : ℚ) + 1⟩

/-- Witness for C3 at the `2 × 5` matrix: the double transpose reconstructs
the matrix entrywise (sample: entry `(1, 3)`, which is `9`). -/
theorem C3_witness :
    (∃ T T2, trWitA.Transpose = .ok T ∧
      T.NumberOfRows = trWitA.NumberOfColumns ∧ T.NumberOfColumns = trWitA.NumberOfRows ∧
      (∀ r c, r < trWitA.NumberOfRows → c < trWitA.NumberOfColumns → T.Get c r = trWitA.Get r c) ∧
      T.Transpose = .ok T2 ∧
      T2.NumberOfRows = trWitA.NumberOfRows ∧ T2.NumberOfColumns = trWitA.NumberOfColumns ∧
      ∀ r c, r < trWitA.NumberOfRows → c < trWitA.NumberOfColumns → T2.Get r c = trWitA.Get r c) ∧
    trWitA.Get 1 3 = 9 := by
  constructor
  · exact C3_transpose_involution trWitA
  · norm_num [trWitA, Matrix.Get]

/-! ### C10: Simpson -/

/-- C10: `Simpson(inf, sup, f, n)` returns an error exactly when `n` is odd
(`n % 2 != 0` with Go's truncated remainder), and for every even `n` —
regardless of `inf`, `sup` and `f` — it returns a value with a `nil` error
(in particular `n = 0` divides by zero in the value, which is not an error in
the model or in Go's float arithmetic). -/
theorem C10_simpson_error_iff (inf sup : ℚ) (f : F) (n : ℤ) :
    ((∃ e, Simpson inf sup f n = .error e) ↔ ¬(2 ∣ n)) ∧
    (2 ∣ n → ∃ v, Simpson inf sup f n = .ok v) ∧
    (¬(2 ∣ n) → Simpson inf sup f n =
      .error ⟨0, "Invalid number of iterations, for simpson, iterations number has to be even"⟩) := by
  have hmod : n.tmod 2 = 0 ↔ 2 ∣ n := Int.dvd_iff_tmod_eq_zero.symm
  by_cases h : 2 ∣ n
  · have h0 : ¬(n.tmod 2 ≠ 0) := by
      rw [hmod.2 h]
      exact not_not_intro rfl
    refine ⟨?_, fun _ => ?_, fun hc => absurd h hc⟩
    · constructor
      · rintro ⟨e, he⟩
        unfold Simpson at he
        rw [if_neg h0] at he
        exact absurd he (by simp)
      · intro hc
        exact absurd h hc
    · unfold Simpson
      rw [if_neg h0]
      exact ⟨_, rfl⟩
  · have h0 : n.tmod 2 ≠ 0 := fun hc => h (hmod.1 hc)
    refine ⟨?_, fun hc => absurd hc h, fun _ => ?_⟩
    · constructor
      · intro _
        exact h
      · intro _
        refine ⟨⟨0, "Invalid number of iterations, for simpson, iterations number has to be even"⟩, ?_⟩
        unfold Simpson
        rw [if_pos h0]
    · unfold Simpson
      rw [if_pos h0]

/-- Witness for C10 at `n = 4` (even: a value) and `n = 3` (odd: the error). -/
theorem C10_witness :
    (∃ v, Simpson 0 1 (fun x => x) 4 = .ok v) ∧
    Simpson 0 1 (fun x => x) 3 =
      .error ⟨0, "Invalid number of iterations, for simpson, iterations number has to be even"⟩ := by
  constructor
  · exact (C10_simpson_error_iff 0 1 (fun x => x) 4).2.1 (by norm_num)
  · exact (C10_simpson_error_iff 0 1 (fun x => x) 3).2.2 (by decide)

end advmath
